import Mathlib

/-!
# Verification of the Voice-CRM extraction core (`backend/api/utils.py`)

Shallow embedding of the `DataExtractor` / `EvaluationManager` classes of
`backend/api/utils.py` (pattern-cascade field extraction with confidence
scoring, spoken-number normalization, city gazetteer matching,
deterministic/LLM result merge, and evaluation comparison), together with
theorems settling the specification claims about them.

Modelling conventions:
* Python strings are Lean `String`s; the ASCII fragment of Python's case
  conversions and whitespace handling is modelled (`pyLower`, `pyStrip`, ...).
* Python floats are modelled as exact rationals `ℚ` (the program only uses
  decimal constants, sums of them, and division by 100; every comparison
  performed by the code is robust to this identification).
* `re.search` / `re.findall` on the concrete patterns of the source are
  modelled by a small backtracking matcher (`mres`) over a pattern AST `RE`,
  with Python's leftmost / greedy / first-alternative preference order.
* The OpenAI client is an external service: it is modelled as an optional
  callable `String → Option LlmRaw` (`None` = call failed / non-JSON reply,
  as `_extract_with_llm` catches its own exceptions and returns `None`).
* The `fuzzywuzzy` scorer behind `process.extractOne` is third-party code;
  it is an abstract parameter `fuzz : String → String → Nat` (its documented
  output range 0..100 appears as a hypothesis where a claim needs it).
* Python dict access: `d.get(k, default)` is total lookup with default;
  `d[k]` is modelled in `Except String` where the error value is the missing
  key (Python's `KeyError`).
-/

namespace VoiceCRM

/-! ## Python string primitives (ASCII fragment) -/

/-- Characters of Python's `str.split()` / `str.strip()` whitespace and of the
regex class `\s` (ASCII part: `string.whitespace`). -/
def pySpaceChar (c : Char) : Bool :=
  c == ' ' || c == '\t' || c == '\n' || c == '\r' || c == '\x0b' || c == '\x0c'

/-- Source: `'A' ≤ c ≤ 'Z'` — the ASCII uppercase range used by `str.lower`/`str.title`. -/
def pyIsUpper (c : Char) : Bool := 'A' ≤ c && c ≤ 'Z'

/-- Source: `'a' ≤ c ≤ 'z'` — the ASCII lowercase range. -/
def pyIsLower (c : Char) : Bool := 'a' ≤ c && c ≤ 'z'

/-- ASCII letter (the regex class `[A-Za-z]`; also Python `str.isalpha` on ASCII). -/
def pyIsAlpha (c : Char) : Bool := pyIsUpper c || pyIsLower c

/-- ASCII digit (the regex classes `[0-9]` and `\d` on ASCII input). -/
def pyIsDigit (c : Char) : Bool := '0' ≤ c && c ≤ '9'

/-- Lower-case one character (`str.lower`, ASCII fragment). -/
def pyLowerChar (c : Char) : Char :=
  if pyIsUpper c then Char.ofNat (c.toNat + 32) else c

/-- Upper-case one character (`str.upper`, ASCII fragment). -/
def pyUpperChar (c : Char) : Char :=
  if pyIsLower c then Char.ofNat (c.toNat - 32) else c

/-- Source: `str.lower()`. -/
def pyLower (s : String) : String := ⟨s.data.map pyLowerChar⟩

/-- Strip leading and trailing whitespace from a character list. -/
def pyStripList (l : List Char) : List Char :=
  ((l.dropWhile pySpaceChar).reverse.dropWhile pySpaceChar).reverse

/-- Source: `str.strip()`. -/
def pyStrip (s : String) : String := ⟨pyStripList s.data⟩

/-- One step of `str.title()`: the boolean records whether the previous
character was a letter. -/
def pyTitleGo : Bool → List Char → List Char
  | _, [] => []
  | prevAlpha, c :: rest =>
    if pyIsAlpha c then
      (if prevAlpha then pyLowerChar c else pyUpperChar c) :: pyTitleGo true rest
    else
      c :: pyTitleGo false rest

/-- Source: `str.title()` (ASCII fragment): first letter of every alphabetic run is
upper-cased, the others lower-cased. -/
def pyTitle (s : String) : String := ⟨pyTitleGo false s.data⟩

/-- Source: `str.split()` with no argument: split on runs of whitespace, dropping
empty pieces.  `acc` holds the current word reversed. -/
def pySplitGo : List Char → List Char → List (List Char)
  | [], acc => if acc.isEmpty then [] else [acc.reverse]
  | c :: rest, acc =>
    if pySpaceChar c then
      if acc.isEmpty then pySplitGo rest [] else acc.reverse :: pySplitGo rest []
    else
      pySplitGo rest (c :: acc)

/-- Source: `str.split()`. -/
def pySplit (s : String) : List String :=
  (pySplitGo s.data []).map fun l => ⟨l⟩

/-- Source: `sep.join(words)`. -/
def pyJoin (sep : String) (words : List String) : String :=
  ⟨sep.data.intercalate (words.map (·.data))⟩

/-- Does `pre` occur at the start of `s`?  (Helper for substring search and
`str.replace`.) -/
def listStartsWith : List Char → List Char → Bool
  | [], _ => true
  | _ :: _, [] => false
  | a :: pre, b :: s => a == b && listStartsWith pre s

/-- Does `needle` occur somewhere inside `hay`?  (Python's `in` on strings.) -/
def listContains (needle : List Char) : List Char → Bool
  | [] => listStartsWith needle []
  | c :: rest => listStartsWith needle (c :: rest) || listContains needle rest

/-- Fueled worker for `str.replace`: replace non-overlapping occurrences of
`old` (non-empty) by `new`, scanning left to right. -/
def replaceGo (old new : List Char) : Nat → List Char → List Char
  | 0, s => s
  | fuel + 1, s =>
    if listStartsWith old s then
      new ++ replaceGo old new fuel (s.drop old.length)
    else
      match s with
      | [] => []
      | c :: rest => c :: replaceGo old new fuel rest

/-- Source: `s.replace(old, new)` for non-empty `old` (every call site of the source
passes a non-empty `old`). -/
def pyReplace (s old new : String) : String :=
  if old.data.isEmpty then s
  else ⟨replaceGo old.data new.data (s.data.length + 1) s.data⟩

/-! ## A backtracking matcher for the concrete patterns of the source

Only the constructs appearing in `utils.py`'s patterns are represented:
character classes, (case-insensitive) literals, concatenation, ordered
alternation, greedy bounded/unbounded repetition, one capture group, and the
word boundary `\b`.  Result lists are ordered by Python's backtracking
preference (leftmost, greedy, earlier alternative first); the engine's chosen
match is the head of the list. -/

/-- Pattern AST. -/
inductive RE where
  | cls (p : Char → Bool)
  | eps
  | bnd
  | cat (a b : RE)
  | alt (a b : RE)
  | rep (lo : Nat) (hi : Option Nat) (r : RE)
  | grp (r : RE)

/-- One way a pattern can match a prefix of the input: the character just
before the remaining suffix (for `\b`), the remaining suffix, and the text of
the capture group if it participated. -/
structure MRes where
  prev : Option Char
  rest : List Char
  cap : Option (List Char)
deriving Repr

/-- Word character for `\b` (ASCII part of `\w`). -/
def wordChar (c : Char) : Bool := pyIsAlpha c || pyIsDigit c || c == '_'

/-- Is there a word boundary between `prev` and the head of `s`? -/
def atBoundary (prev : Option Char) (s : List Char) : Bool :=
  let left := match prev with | some c => wordChar c | none => false
  let right := match s with | c :: _ => wordChar c | [] => false
  left != right

/-- Greedy repetition loop: `step` matches one copy of the body.  Deeper
iterations are preferred; an iteration must consume at least one character
(all repetition bodies in the source consume input).  `fuel` bounds the
number of iterations (callers pass `s.length + 1`, which is always enough
since every iteration consumes). -/
def repRun (step : Option Char → List Char → List MRes) (lo : Nat) (hi : Option Nat) :
    Nat → Nat → Option Char → List Char → List MRes
  | 0, _, _, _ => []
  | fuel + 1, count, prev, s =>
    let hiOK : Bool := match hi with | some h => decide (count < h) | none => true
    let deeper : List MRes :=
      if hiOK then
        (step prev s).flatMap fun r1 =>
          if r1.rest.length < s.length then
            (repRun step lo hi fuel (count + 1) r1.prev r1.rest).map fun r2 =>
              ⟨r2.prev, r2.rest, (r2.cap).orElse fun _ => r1.cap⟩
          else []
      else []
    deeper ++ (if lo ≤ count then [⟨prev, s, none⟩] else [])

/-- All matches of `r` against a prefix of `s`, in backtracking preference
order.  `prev` is the character immediately before `s` in the full input. -/
def mres : RE → Option Char → List Char → List MRes
  | .cls p, _, s =>
    match s with
    | [] => []
    | c :: rest => if p c then [⟨some c, rest, none⟩] else []
  | .eps, prev, s => [⟨prev, s, none⟩]
  | .bnd, prev, s => if atBoundary prev s then [⟨prev, s, none⟩] else []
  | .cat a b, prev, s =>
    (mres a prev s).flatMap fun r1 =>
      (mres b r1.prev r1.rest).map fun r2 =>
        ⟨r2.prev, r2.rest, (r1.cap).orElse fun _ => r2.cap⟩
  | .alt a b, prev, s => mres a prev s ++ mres b prev s
  | .rep lo hi r, prev, s => repRun (fun p t => mres r p t) lo hi (s.length + 1) 0 prev s
  | .grp r, prev, s =>
    (mres r prev s).map fun r1 =>
      ⟨r1.prev, r1.rest, some (s.take (s.length - r1.rest.length))⟩

/-- Source: `re.search` worker: try to match at the current position, else advance one
character; `fuel` is the number of start positions left to try. -/
def searchGo (r : RE) : Nat → Option Char → List Char → Option MRes
  | 0, _, _ => none
  | fuel + 1, prev, s =>
    match (mres r prev s).head? with
    | some res => some res
    | none =>
      match s with
      | [] => none
      | c :: rest => searchGo r fuel (some c) rest

/-- Source: `re.search(pattern, text)`: leftmost match, backtracking preference within
a position. -/
def research (r : RE) (s : List Char) : Option MRes :=
  searchGo r (s.length + 1) none s

/-- Source: `re.findall(pattern, text)` for the group-less patterns of the source:
the list of non-overlapping matched substrings, scanning left to right. -/
def findAllGo (r : RE) : Nat → Option Char → List Char → List (List Char)
  | 0, _, _ => []
  | fuel + 1, prev, s =>
    match (mres r prev s).head? with
    | some res =>
      let consumed := s.take (s.length - res.rest.length)
      if consumed.isEmpty then
        match s with
        | [] => []
        | c :: rest => findAllGo r fuel (some c) rest
      else
        consumed :: findAllGo r fuel res.prev res.rest
    | none =>
      match s with
      | [] => []
      | c :: rest => findAllGo r fuel (some c) rest

/-- Source: `re.findall`. -/
def findAll (r : RE) (s : List Char) : List (List Char) :=
  findAllGo r (s.length + 1) none s

/-! ### Pattern construction helpers mirroring the regex syntax -/

/-- A case-insensitive literal (all `re.search` calls in the source pass
`re.IGNORECASE`). -/
def reLitI (s : String) : RE :=
  s.data.foldr (fun c acc => RE.cat (RE.cls fun d => pyLowerChar d == pyLowerChar c) acc) RE.eps

/-- A case-sensitive literal (the `re.findall` calls in
`_convert_spoken_numbers` do not pass `re.IGNORECASE`). -/
def reLit (s : String) : RE :=
  s.data.foldr (fun c acc => RE.cat (RE.cls fun d => d == c) acc) RE.eps

/-- Ordered alternation `(?:x|y|...)`. -/
def reAlts : List RE → RE
  | [] => RE.cls fun _ => false
  | [x] => x
  | x :: xs => RE.alt x (reAlts xs)

/-- Source: `X+`. -/
def rePlus (r : RE) : RE := RE.rep 1 none r

/-- Source: `X*`. -/
def reStar (r : RE) : RE := RE.rep 0 none r

/-- Source: `X?` (greedy: prefer presence). -/
def reOpt (r : RE) : RE := RE.alt r RE.eps

/-- Source: `\s`. -/
def reSpace : RE := RE.cls pySpaceChar

/-- Source: `[A-Za-z]`. -/
def reAlpha : RE := RE.cls pyIsAlpha

/-- Source: `[0-9]` / `\d`. -/
def reDigit : RE := RE.cls pyIsDigit

/-- Source: `[0-9\s]`. -/
def reDigitSpace : RE := RE.cls fun c => pyIsDigit c || pySpaceChar c

/-- Source: `[^,]` (any character but a comma, including newlines). -/
def reNotComma : RE := RE.cls fun c => c != ','

/-- Source: `.` (any character but a newline; `re.DOTALL` is never passed). -/
def reDot : RE := RE.cls fun c => c != '\n'

/-! ## Data model (`_extract_with_regex`'s result dict) -/

/-- The `"customer"` sub-dict: all strings, `""` = not found. -/
structure Customer where
  full_name : String
  phone : String
  address : String
  city : String
  locality : String
deriving Repr, DecidableEq

/-- An extraction result: customer fields, interaction summary and
construction timestamp, and the `"confidence_scores"` dict, kept as an
association list so that key lookups (and Python's `KeyError`) are modelled
faithfully. -/
structure ExtractionResult where
  customer : Customer
  summary : String
  created_at : String
  confidence_scores : List (String × ℚ)
deriving Repr, DecidableEq

/-- Source: `customer.get(field, "")`: dict read with default. -/
def Customer.get (c : Customer) : String → String
  | "full_name" => c.full_name
  | "phone" => c.phone
  | "address" => c.address
  | "city" => c.city
  | "locality" => c.locality
  | _ => ""

/-- Source: `customer[field] = v`: dict write (unknown keys would add a new entry,
which no claim observes, so they are ignored). -/
def Customer.set (c : Customer) (field v : String) : Customer :=
  match field with
  | "full_name" => { c with full_name := v }
  | "phone" => { c with phone := v }
  | "address" => { c with address := v }
  | "city" => { c with city := v }
  | "locality" => { c with locality := v }
  | _ => c

/-! ## `_convert_spoken_numbers` -/

/-- The `number_map` dict, in source order. -/
def number_map : List (String × String) :=
  [("zero", "0"), ("one", "1"), ("two", "2"), ("three", "3"), ("four", "4"),
   ("five", "5"), ("six", "6"), ("seven", "7"), ("eight", "8"), ("nine", "9"),
   ("ten", "10"), ("eleven", "11"), ("twelve", "12"), ("thirteen", "13"),
   ("fourteen", "14"), ("fifteen", "15"), ("sixteen", "16"), ("seventeen", "17"),
   ("eighteen", "18"), ("nineteen", "19"), ("twenty", "20")]

/-- Source: `\b(?:zero|one|...|twenty)\b` — the second-pass sweep for remaining spoken
numbers (alternatives in source order). -/
def spokenRE : RE :=
  RE.cat RE.bnd (RE.cat (reAlts (number_map.map fun kv => reLit kv.1)) RE.bnd)

/-- Source: `(?:\d\s+){4,}\d` — the final digit-run compaction pattern (note: it
requires at least five digits). -/
def digitRunRE : RE :=
  RE.cat (RE.rep 4 none (RE.cat reDigit (rePlus reSpace))) reDigit

/-- Source: `DataExtractor._convert_spoken_numbers`: lower-case and whitespace-split
the text, substitute spoken number words word-by-word, re-join with single
spaces, sweep for remaining spoken numbers with a regex and replace each
occurrence found, then compact whitespace-separated digit runs found by
`digitRunRE`. -/
def _convert_spoken_numbers (text : String) : String :=
  let words := pySplit (pyLower text)
  let converted_words := words.map fun w => ((number_map.lookup w).getD w)
  let converted_text := pyJoin (" ") converted_words
  let remaining_spoken := findAll spokenRE converted_text.data
  let converted_text := remaining_spoken.foldl
    (fun t sp => pyReplace t ⟨sp⟩ ((number_map.lookup ⟨sp⟩).getD ⟨sp⟩)) converted_text
  let digit_sequences := findAll digitRunRE converted_text.data
  let converted_text := digit_sequences.foldl
    (fun t sq => pyReplace t ⟨sq⟩ ⟨sq.filter fun c => !pySpaceChar c⟩) converted_text
  converted_text

/-! ## The pattern cascades of `_extract_with_regex` -/

/-- Source: `([A-Za-z]+\s+[A-Za-z]+)` — the two-word capture shared by the name
patterns. -/
def nameCore : RE :=
  RE.cat (rePlus reAlpha) (RE.cat (rePlus reSpace) (rePlus reAlpha))

/-- Source: `name_patterns`, in source order. -/
def name_patterns : List RE :=
  [RE.cat (reLitI ("customer")) (RE.cat (rePlus reSpace) (RE.grp nameCore)),
   RE.cat (RE.grp nameCore) (RE.cat (rePlus reSpace) (reLitI ("called"))),
   RE.cat (reLitI ("spoke")) (RE.cat (rePlus reSpace)
     (RE.cat (reLitI ("with")) (RE.cat (rePlus reSpace) (RE.grp nameCore)))),
   RE.cat (reLitI ("met")) (RE.cat (rePlus reSpace)
     (RE.cat (reLitI ("with")) (RE.cat (rePlus reSpace) (RE.grp nameCore)))),
   RE.cat (reLitI ("called")) (RE.cat (rePlus reSpace) (RE.grp nameCore))]

/-- Source: `phone_patterns`, in source order. -/
def phone_patterns : List RE :=
  [RE.cat (reLitI ("phone")) (RE.cat (rePlus reSpace)
     (RE.cat (reOpt (RE.cat (reLitI ("number")) (rePlus reSpace)))
       (RE.grp (RE.rep 10 (some 15) reDigitSpace)))),
   RE.cat (reLitI ("number")) (RE.cat (rePlus reSpace)
     (RE.cat (reLitI ("is")) (RE.cat (rePlus reSpace)
       (RE.grp (RE.rep 10 (some 15) reDigitSpace))))),
   RE.cat (reLitI ("contact")) (RE.cat (rePlus reSpace)
     (RE.grp (RE.rep 10 (some 15) reDigitSpace))),
   RE.grp (RE.rep 10 (some 10) reDigit),
   RE.grp (RE.rep 10 (some 10) reDigitSpace)]

/-- Source: `address_patterns`, in source order. -/
def address_patterns : List RE :=
  [RE.cat (reLitI ("at")) (RE.cat (rePlus reSpace)
     (RE.grp (RE.cat (rePlus reDigit) (RE.cat (rePlus reSpace) (rePlus reNotComma))))),
   RE.cat (reLitI ("address")) (RE.cat (rePlus reSpace)
     (RE.cat (reLitI ("is")) (RE.cat (rePlus reSpace) (RE.grp (rePlus reNotComma))))),
   RE.cat (reLitI ("located")) (RE.cat (rePlus reSpace)
     (RE.cat (reLitI ("at")) (RE.cat (rePlus reSpace) (RE.grp (rePlus reNotComma))))),
   RE.grp (RE.cat (rePlus reNotComma) (RE.cat (rePlus reSpace)
     (reAlts [reLitI ("street"), reLitI ("road"), reLitI ("lane"), reLitI ("avenue"),
              reLitI ("sector"), reLitI ("block")])))]

/-- Source: `self.locality_patterns`, in source order. -/
def locality_patterns : List RE :=
  [RE.grp (RE.cat (rePlus reAlpha) (RE.cat (rePlus reSpace)
     (reAlts [reLitI ("layout"), reLitI ("colony"), reLitI ("nagar"), reLitI ("enclave"),
              reLitI ("park"), reLitI ("garden"), reLitI ("hills"), reLitI ("lake"),
              reLitI ("circle"), reLitI ("square")]))),
   RE.grp (RE.cat (rePlus reAlpha) (RE.cat (rePlus reSpace)
     (reAlts [reLitI ("sector"), reLitI ("block"), reLitI ("phase"), reLitI ("zone")]))),
   RE.grp (RE.cat (rePlus reAlpha) (RE.cat (rePlus reSpace)
     (reAlts [reLitI ("street"), reLitI ("road"), reLitI ("lane"), reLitI ("avenue")]))),
   RE.cat (reLitI ("in")) (RE.cat (rePlus reSpace)
     (RE.grp (RE.cat (rePlus reAlpha) (RE.cat (rePlus reSpace)
       (reAlts [reLitI ("layout"), reLitI ("colony"), reLitI ("nagar")])))))]

/-- Source: `summary_patterns`, in source order. -/
def summary_patterns : List RE :=
  [RE.cat (reAlts [reLitI ("discussed"), reLitI ("talked about"), reLitI ("we"), reLitI ("they")])
     (RE.cat (rePlus reSpace) (RE.grp (rePlus reDot))),
   RE.cat (reAlts [reLitI ("next steps"), reLitI ("follow up"), reLitI ("meeting"),
                   reLitI ("demo"), reLitI ("pricing"), reLitI ("contract"), reLitI ("agreement")])
     (RE.cat (reStar reSpace) (RE.grp (rePlus reDot))),
   RE.cat (reAlts [reLitI ("interested in"), reLitI ("wants to"), reLitI ("needs to"), reLitI ("will")])
     (RE.cat (rePlus reSpace) (RE.grp (rePlus reDot)))]

/-- Source: `self.indian_cities`, in source order, duplicates included. -/
def indian_cities : List String :=
  ["mumbai", "delhi", "bangalore", "hyderabad", "chennai", "kolkata", "pune",
   "ahmedabad", "jaipur", "surat", "lucknow", "kanpur", "nagpur", "indore",
   "thane", "bhopal", "visakhapatnam", "pimpri", "patna", "vadodara", "ghaziabad",
   "ludhiana", "agra", "nashik", "faridabad", "meerut", "rajkot", "kalyan",
   "vasai", "varanasi", "srinagar", "aurangabad", "dhanbad", "amritsar",
   "navi mumbai", "allahabad", "ranchi", "howrah", "coimbatore", "jabalpur",
   "gwalior", "vijayawada", "jodhpur", "madurai", "raipur", "kota", "chandigarh",
   "guwahati", "solapur", "hubli", "tiruchirappalli", "bareilly", "mysore",
   "tirupur", "gurgaon", "aligarh", "jalandhar", "bhubaneswar", "salem",
   "mira", "thane", "mathura", "bhiwandi", "saharanpur", "gorakhpur",
   "bikaner", "amravati", "noida", "jamshedpur", "bhilai", "cuttack",
   "firozabad", "kochi", "nellore", "bhavnagar", "tirupati", "kurnool",
   "rajahmundry", "tumkur", "kishanganj", "erode", "bokaro", "south dumdum",
   "bellary", "patiala", "gurgaon", "noida", "faridabad", "ghaziabad"]

/-! ## `_extract_with_regex` -/

/-- The generic first-match-wins cascade used for name, address and locality:
try the patterns in order starting at 0-based index `i`; on the first match,
return `match.group(1).strip()` with confidence `base + i * inc`; if no
pattern matches, return `("", 0)`.  (Every pattern of these cascades contains
a capture group, so a successful search always carries one; a group-less
success is treated like a failed pattern.) -/
def scanPatterns (base inc : ℚ) : Nat → List RE → List Char → String × ℚ
  | _, [], _ => ("", 0)
  | i, p :: ps, s =>
    match research p s with
    | some res =>
      match res.cap with
      | some l => (pyStrip ⟨l⟩, base + (i : ℚ) * inc)
      | none => scanPatterns base inc (i + 1) ps s
    | none => scanPatterns base inc (i + 1) ps s

/-- The phone cascade: on a match, strip whitespace from the captured group
(`re.sub(r'\s', '', ...)`); if at least 10 characters remain, keep the last
10 (`phone[-10:]`) with confidence `0.9 + i * 0.02`, otherwise keep trying
later patterns. -/
def phoneScan : Nat → List RE → List Char → String × ℚ
  | _, [], _ => ("", 0)
  | i, p :: ps, s =>
    match research p s with
    | some res =>
      match res.cap with
      | some l =>
        let phone := l.filter fun c => !pySpaceChar c
        if 10 ≤ phone.length then
          (⟨phone.drop (phone.length - 10)⟩, 0.9 + (i : ℚ) * 0.02)
        else phoneScan (i + 1) ps s
      | none => phoneScan (i + 1) ps s
    | none => phoneScan (i + 1) ps s

/-- The summary cascade: `match.group(1).strip()` with trailing periods
removed (`re.sub(r'\.+$', '', summary)`; a captured summary never contains a
newline since `.` excludes it, so `$` is plain end-of-string here),
confidence `0.8 + i * 0.05`. -/
def summaryScan : Nat → List RE → List Char → String × ℚ
  | _, [], _ => ("", 0)
  | i, p :: ps, s =>
    match research p s with
    | some res =>
      match res.cap with
      | some l =>
        let summary := pyStripList l
        (⟨(summary.reverse.dropWhile fun c => c == '.').reverse⟩, 0.8 + (i : ℚ) * 0.05)
      | none => summaryScan (i + 1) ps s
    | none => summaryScan (i + 1) ps s

/-- Source: `process.extractOne` from `fuzzywuzzy` (third-party): the choice with the
maximal score under the library's scorer, the first choice winning ties
(Python's `max` keeps the first maximal element).  The scorer (including the
library's internal string pre-processing) is the abstract parameter `fuzz`;
its documented range is 0..100. -/
def extractOneGo (fuzz : String → String → Nat) (q : String) :
    String × Nat → List String → String × Nat
  | best, [] => best
  | best, c :: cs =>
    extractOneGo fuzz q (if best.2 < fuzz q c then (c, fuzz q c) else best) cs

/-- Source: `process.extractOne(query, choices)` (`none` only for an empty choice
list, which never happens in the source). -/
def extractOne (fuzz : String → String → Nat) (q : String) :
    List String → Option (String × Nat)
  | [] => none
  | c :: cs => some (extractOneGo fuzz q (c, fuzz q c) cs)

/-- The city extraction block: first city of the gazetteer occurring as a
substring of the lower-cased text (confidence 0.85, value title-cased);
otherwise, if the text has a word longer than 3 characters, fuzzy-match the
whole text against the gazetteer and accept the best match when its score
exceeds 80 (confidence `score / 100`). -/
def cityScan (fuzz : String → String → Nat) (text_lower : String) : String × ℚ :=
  match indian_cities.find? (fun city => listContains city.data text_lower.data) with
  | some city => (pyTitle city, 0.85)
  | none =>
    let cities_in_text := (pySplit text_lower).filter fun w => 3 < w.length
    if cities_in_text.isEmpty then ("", 0)
    else
      match extractOne fuzz text_lower indian_cities with
      | some bs => if 80 < bs.2 then (pyTitle bs.1, (bs.2 : ℚ) / 100) else ("", 0)
      | none => ("", 0)

/-- Source: `DataExtractor._extract_with_regex`.  `fuzz` is the `fuzzywuzzy` scorer
(third-party, abstract); `now` is the value of `datetime.now().isoformat()`
at result construction (the only non-text input the function reads). -/
def _extract_with_regex (fuzz : String → String → Nat) (now text0 : String) :
    ExtractionResult :=
  let text := _convert_spoken_numbers text0
  let s := text.data
  let nameR := scanPatterns 0.8 0.04 0 name_patterns s
  let phoneR := phoneScan 0 phone_patterns s
  let addressR := scanPatterns 0.7 0.05 0 address_patterns s
  let cityR := cityScan fuzz (pyLower text)
  let localityR := scanPatterns 0.75 0.05 0 locality_patterns s
  let summaryR := summaryScan 0 summary_patterns s
  { customer :=
      { full_name := nameR.1, phone := phoneR.1, address := addressR.1,
        city := cityR.1, locality := localityR.1 },
    summary := summaryR.1,
    created_at := now,
    confidence_scores :=
      [("name", nameR.2), ("phone", phoneR.2), ("address", addressR.2),
       ("city", cityR.2), ("locality", localityR.2), ("summary", summaryR.2)] }

/-! ## `_extract_with_llm` and the merge -/

/-- The JSON shape the LLM is asked to return (customer dict + interaction
summary).  A service reply that is missing a key behaves, through the merge's
`.get(..., "")` reads, exactly like an empty string, so the fields are plain
strings here. -/
structure LlmRaw where
  customer : Customer
  summary : String
deriving Repr, DecidableEq

/-- The fixed confidence weights attached to an LLM result (source order). -/
def llm_confidence_scores : List (String × ℚ) :=
  [("name", 0.95), ("phone", 0.95), ("address", 0.85),
   ("city", 0.90), ("locality", 0.85), ("summary", 0.90)]

/-- Source: `DataExtractor._extract_with_llm`: call the external service; on any
failure (network error, non-JSON reply, ...) the function catches the
exception and returns `None`, modelled by the service returning `none`.  A
successful reply gets the fixed `llm_confidence_scores` attached.  (An LLM
result dict has no `created_at`; the merge never reads it.) -/
def _extract_with_llm (service : String → Option LlmRaw) (text : String) :
    Option ExtractionResult :=
  (service text).map fun raw =>
    { customer := raw.customer, summary := raw.summary, created_at := "",
      confidence_scores := llm_confidence_scores }

/-- The field list of the merge loop — note `"full_name"`, which is not a key
of either `confidence_scores` dict (those use `"name"`). -/
def merge_fields : List String :=
  ["full_name", "phone", "address", "city", "locality"]

/-- Source: `d.get(field, 0)` on a confidence dict. -/
def confGetD (m : List (String × ℚ)) (field : String) : ℚ :=
  ((m.lookup field).getD 0)

/-- One iteration of the merge's per-field loop, threading the merged
customer dict and confidence dict and raising `KeyError` (`Except.error`
with the missing key) on the strict indexings `llm_result["confidence_scores"][field]`
and `regex_result["confidence_scores"][field]`. -/
def mergeFieldStep (regex_result llm : ExtractionResult)
    (acc : Customer × List (String × ℚ)) (field : String) :
    Except String (Customer × List (String × ℚ)) :=
  let llm_value := pyStrip (llm.customer.get field)
  let regex_value := pyStrip (regex_result.customer.get field)
  if llm_value ≠ "" ∧ (0.8 : ℚ) < confGetD llm.confidence_scores field then
    match llm.confidence_scores.lookup field with
    | some v => .ok (acc.1.set field llm_value, acc.2 ++ [(field, v)])
    | none => .error field
  else
    match regex_result.confidence_scores.lookup field with
    | some v => .ok (acc.1.set field regex_value, acc.2 ++ [(field, v)])
    | none => .error field

/-- Exception propagation out of the merge loop: the Python `for` loop stops
at the first `KeyError`, modelled by `Except.error` short-circuiting through
this fold. -/
def foldFieldsE (f : Customer × List (String × ℚ) → String →
    Except String (Customer × List (String × ℚ))) :
    Customer × List (String × ℚ) → List String →
    Except String (Customer × List (String × ℚ))
  | acc, [] => .ok acc
  | acc, field :: rest =>
    match f acc field with
    | .ok acc2 => foldFieldsE f acc2 rest
    | .error e => .error e

/-- Source: `DataExtractor._merge_extraction_results`: a `None` LLM result passes
the regex result through; otherwise each customer field prefers the
(stripped) LLM value when it is non-empty with declared confidence above
0.8, and the summary prefers the non-empty strictly longer LLM summary;
`now` is the timestamp the merged dict is stamped with. -/
def _merge_extraction_results (now : String) (regex_result : ExtractionResult)
    (llm_result : Option ExtractionResult) : Except String ExtractionResult :=
  match llm_result with
  | none => .ok regex_result
  | some llm =>
    match foldFieldsE (mergeFieldStep regex_result llm)
      ({ full_name := "", phone := "", address := "", city := "", locality := "" }, [])
      merge_fields with
    | .error e => .error e
    | .ok acc =>
    let llm_summary := pyStrip llm.summary
    let regex_summary := pyStrip regex_result.summary
    if llm_summary ≠ "" ∧ regex_summary.length < llm_summary.length then
      match llm.confidence_scores.lookup ("summary") with
      | some v =>
        .ok { customer := acc.1, summary := llm_summary, created_at := now,
              confidence_scores := acc.2 ++ [("summary", v)] }
      | none => .error ("summary")
    else
      match regex_result.confidence_scores.lookup ("summary") with
      | some v =>
        .ok { customer := acc.1, summary := regex_summary, created_at := now,
              confidence_scores := acc.2 ++ [("summary", v)] }
      | none => .error ("summary")

/-- Source: `DataExtractor.extract_customer_data`: regex extraction, then — when an
OpenAI client is configured — LLM extraction and merge inside a `try` whose
`except` keeps the regex-only result. -/
def extract_customer_data (fuzz : String → String → Nat) (now now2 : String)
    (openai_client : Option (String → Option LlmRaw)) (text : String) :
    ExtractionResult :=
  let result := _extract_with_regex fuzz now text
  match openai_client with
  | none => result
  | some service =>
    match _merge_extraction_results now2 result (_extract_with_llm service text) with
    | .ok merged => merged
    | .error _ => result

/-! ## `EvaluationManager.compare_results` -/

/-- The shape `compare_results` reads from each argument: the `"customer"`
sub-dict and the interaction summary (a missing key reads as `""` through
`.get`). -/
structure CmpRecord where
  customer : Customer
  summary : String
deriving Repr, DecidableEq

/-- The keys the comparison loop iterates over — `"address"` is absent. -/
def compare_keys : List String := ["full_name", "phone", "city", "locality"]

/-- Source: `EvaluationManager.compare_results`: for each compared key, lower-cased /
stripped values must agree unless the expected value is empty; the summary
check passes on equality or when the expected summary is a substring of the
actual one.  (The `try/except` around the body can only fire on malformed
duck-typed input, which the typed model excludes.) -/
def compare_results (actual expected : CmpRecord) : Bool :=
  let customer_match := compare_keys.all fun key =>
    let actual_val := pyStrip (pyLower (actual.customer.get key))
    let expected_val := pyStrip (pyLower (expected.customer.get key))
    actual_val == expected_val || expected_val == ""
  let actual_summary := pyStrip (pyLower actual.summary)
  let expected_summary := pyStrip (pyLower expected.summary)
  let summary_match := actual_summary == expected_summary
    || listContains expected_summary.data actual_summary.data
  customer_match && summary_match

/-! ## The merge's `KeyError`: helper lemmas -/

theorem llm_lookup_full_name : llm_confidence_scores.lookup ("full_name") = none := rfl

theorem regex_confs_eq (fuzz : String → String → Nat) (now text : String) :
    (_extract_with_regex fuzz now text).confidence_scores =
      [("name", (scanPatterns 0.8 0.04 0 name_patterns (_convert_spoken_numbers text).data).2),
       ("phone", (phoneScan 0 phone_patterns (_convert_spoken_numbers text).data).2),
       ("address", (scanPatterns 0.7 0.05 0 address_patterns (_convert_spoken_numbers text).data).2),
       ("city", (cityScan fuzz (pyLower (_convert_spoken_numbers text))).2),
       ("locality", (scanPatterns 0.75 0.05 0 locality_patterns (_convert_spoken_numbers text).data).2),
       ("summary", (summaryScan 0 summary_patterns (_convert_spoken_numbers text).data).2)] := rfl

theorem regex_customer_eq (fuzz : String → String → Nat) (now text : String) :
    (_extract_with_regex fuzz now text).customer =
      { full_name := (scanPatterns 0.8 0.04 0 name_patterns (_convert_spoken_numbers text).data).1,
        phone := (phoneScan 0 phone_patterns (_convert_spoken_numbers text).data).1,
        address := (scanPatterns 0.7 0.05 0 address_patterns (_convert_spoken_numbers text).data).1,
        city := (cityScan fuzz (pyLower (_convert_spoken_numbers text))).1,
        locality := (scanPatterns 0.75 0.05 0 locality_patterns (_convert_spoken_numbers text).data).1 } := rfl

theorem regex_lookup_full_name (fuzz : String → String → Nat) (now text : String) :
    (_extract_with_regex fuzz now text).confidence_scores.lookup ("full_name") = none := by
  rw [regex_confs_eq]
  rfl

/-- On the very first field of its loop, `"full_name"`, the merge step raises
`KeyError`: the LLM confidence read defaults to 0 (so the LLM branch is not
taken) and the strict regex confidence indexing misses. -/
theorem mergeFieldStep_full_name (r llm : ExtractionResult)
    (acc : Customer × List (String × ℚ))
    (hl : llm.confidence_scores.lookup ("full_name") = none)
    (hr : r.confidence_scores.lookup ("full_name") = none) :
    mergeFieldStep r llm acc ("full_name") = .error ("full_name") := by
  unfold mergeFieldStep confGetD
  rw [hl, hr]
  rw [if_neg]
  rintro ⟨-, h2⟩
  norm_num at h2

/-- A present LLM result makes the whole merge raise `KeyError('full_name')`
whenever neither confidence dict has the key `"full_name"`. -/
theorem merge_some_error (now2 : String) (r llm : ExtractionResult)
    (hl : llm.confidence_scores.lookup ("full_name") = none)
    (hr : r.confidence_scores.lookup ("full_name") = none) :
    _merge_extraction_results now2 r (some llm) = .error ("full_name") := by
  have hstep := mergeFieldStep_full_name r llm
    ({ full_name := "", phone := "", address := "", city := "", locality := "" }, []) hl hr
  unfold _merge_extraction_results
  dsimp only
  rw [merge_fields, foldFieldsE, hstep]

/-- Unfolding equation: no client configured means no merge at all. -/
theorem extract_none (fuzz : String → String → Nat) (now now2 text : String) :
    extract_customer_data fuzz now now2 none text = _extract_with_regex fuzz now text := rfl

/-- Unfolding equation: with a client, the result is the merge output unless
the merge raises, in which case the regex result is kept (the `try/except`). -/
theorem extract_some (fuzz : String → String → Nat) (now now2 text : String)
    (service : String → Option LlmRaw) :
    extract_customer_data fuzz now now2 (some service) text =
      match _merge_extraction_results now2 (_extract_with_regex fuzz now text)
          (_extract_with_llm service text) with
      | .ok merged => merged
      | .error _ => _extract_with_regex fuzz now text := rfl

/-- Unfolding equation for the LLM wrapper on a successful service reply. -/
theorem llm_some (service : String → Option LlmRaw) (text : String) (raw : LlmRaw)
    (hsvc : service text = some raw) :
    _extract_with_llm service text =
      some { customer := raw.customer, summary := raw.summary, created_at := "",
             confidence_scores := llm_confidence_scores } := by
  unfold _extract_with_llm
  rw [hsvc]
  rfl

/-- The pipeline entry point always returns the plain regex result: with no
client it never merges, and with a client the merge either gets `None`
(pass-through) or raises `KeyError` (caught, regex result kept). -/
theorem extract_eq_regex (fuzz : String → String → Nat) (now now2 : String)
    (client : Option (String → Option LlmRaw)) (text : String) :
    extract_customer_data fuzz now now2 client text = _extract_with_regex fuzz now text := by
  cases client with
  | none => exact extract_none fuzz now now2 text
  | some service =>
    rw [extract_some]
    cases hsvc : service text with
    | none =>
      have hllm : _extract_with_llm service text = none := by
        unfold _extract_with_llm
        rw [hsvc]
        rfl
      rw [hllm]
      rfl
    | some raw =>
      rw [llm_some service text raw hsvc,
        merge_some_error now2 _ _ llm_lookup_full_name (regex_lookup_full_name fuzz now text)]

/-- claim C3: whenever `_extract_with_llm` returns a non-`None` result (its
`confidence_scores` keys being `name`, `phone`, `address`, `city`,
`locality`, `summary`), `_merge_extraction_results` applied to it and any
regex result raises `KeyError` — the per-field loop reads the key
`"full_name"`, which neither confidence dict contains — and
`extract_customer_data` catches the exception and returns the unmerged
regex-only result, so the pipeline output always equals the deterministic
extraction. -/
theorem claim_C3_merge_keyerror_fallback (fuzz : String → String → Nat)
    (now now2 text : String) (raw : LlmRaw)
    (client : Option (String → Option LlmRaw)) :
    _merge_extraction_results now2 (_extract_with_regex fuzz now text)
        (_extract_with_llm (fun _ => some raw) text) = .error ("full_name")
    ∧ extract_customer_data fuzz now now2 client text = _extract_with_regex fuzz now text := by
  constructor
  · rw [llm_some (fun _ => some raw) text raw rfl]
    exact merge_some_error now2 _ _ llm_lookup_full_name (regex_lookup_full_name fuzz now text)
  · exact extract_eq_regex fuzz now now2 client text

/-- claim C1 (code bug witness): a concrete run of the merge on a regex
result (confidence keys `name`, ...) and an LLM result whose `full_name` is
empty — where the claimed merge rule would keep the deterministic name and
its confidence — instead raises `KeyError('full_name')`. -/
theorem claim_C1_merge_keyerror_at_full_name :
    _merge_extraction_results ("2024-01-01T00:00:02")
      (_extract_with_regex (fun _ _ => 0) ("2024-01-01T00:00:01")
        ("customer amit verma called from 9876543210"))
      (some { customer := { full_name := "", phone := "", address := "",
                            city := "", locality := "" },
              summary := "", created_at := "",
              confidence_scores := llm_confidence_scores }) =
      .error ("full_name") :=
  merge_some_error _ _ _ llm_lookup_full_name (regex_lookup_full_name _ _ _)

/-- claim C2 (code bug witness): even with a non-empty LLM summary strictly
longer than the deterministic one — where the claimed summary rule would
adopt it — the merge raises `KeyError('full_name')` in its per-field loop
before the summary comparison is ever reached. -/
theorem claim_C2_merge_keyerror_before_summary :
    _merge_extraction_results ("2024-02-02T10:00:00")
      (_extract_with_regex (fun _ _ => 0) ("2024-02-02T09:59:59")
        ("we discussed demo"))
      (some { customer := { full_name := "", phone := "", address := "",
                            city := "", locality := "" },
              summary := "discussed demo and agreed on next steps with the customer",
              created_at := "",
              confidence_scores := llm_confidence_scores }) =
      .error ("full_name") :=
  merge_some_error _ _ _ llm_lookup_full_name (regex_lookup_full_name _ _ _)

/-! ## Spoken-number normalization: concrete claims -/

/-- claim C8: the spoken-number round trip of the spec — ten digit words
collapse to the contiguous ten-digit string. -/
theorem claim_C8_spoken_round_trip :
    _convert_spoken_numbers ("nine nine eight eight seven seven six six five five") =
      ("9988776655") := by rfl

/-- claim C7 (counterexample): a whitespace-separated run of exactly 4 single
digits is NOT compacted — the final pass pattern `(?:\d\s+){4,}\d` needs at
least five digits — so the output of the normalizer on `"1 2 3 4"` is
unchanged and does not contain `"1234"`.  Moreover the pass is not even a
uniform "compact every run of five or more digits" rule: because every found
run is substituted by textual `str.replace`, a text with several runs can be
left partially uncompacted — `"1 2 3 4 5x1 2 3 4 5 6"` yields
`"12345x12345 6"`, where the trailing six-digit run survives as
`"1 2 3 4 5 6"` before replacement hits both copies of the five-digit
substring. -/
theorem claim_C7_counterexample :
    _convert_spoken_numbers ("1 2 3 4") = ("1 2 3 4")
    ∧ listContains ("1234").data (_convert_spoken_numbers ("1 2 3 4")).data = false
    ∧ _convert_spoken_numbers ("1 2 3 4 5x1 2 3 4 5 6") = ("12345x12345 6") := by
  exact ⟨rfl, rfl, rfl⟩

/-! ## Determinism of the regex path -/

/-- claim C9 (amended): the deterministic extractor is a pure function of the
input text (and of the fixed third-party fuzzy scorer): two calls agree on
every field — customer, summary and all confidence scores — except the
`created_at` construction timestamp. -/
theorem claim_C9_deterministic_up_to_timestamp (fuzz : String → String → Nat)
    (now1 now2 text : String) :
    (_extract_with_regex fuzz now1 text).customer =
        (_extract_with_regex fuzz now2 text).customer
    ∧ (_extract_with_regex fuzz now1 text).summary =
        (_extract_with_regex fuzz now2 text).summary
    ∧ (_extract_with_regex fuzz now1 text).confidence_scores =
        (_extract_with_regex fuzz now2 text).confidence_scores :=
  ⟨rfl, rfl, rfl⟩

/-- claim C9 (counterexample): two calls of `_extract_with_regex` on the
identical input string are not byte-identical in every field — the
`created_at` field records `datetime.now()` at construction time, so calls
at different clock readings differ. -/
theorem claim_C9_counterexample :
    _extract_with_regex (fun _ _ => 0) ("2024-01-01T00:00:00") ("hello") ≠
      _extract_with_regex (fun _ _ => 0) ("2024-01-01T00:00:07") ("hello") := by
  intro h
  have h2 : ("2024-01-01T00:00:00" : String) = ("2024-01-01T00:00:07") :=
    congrArg ExtractionResult.created_at h
  exact absurd h2 (by decide)

/-! ## claim C4: the evaluation comparison -/

/-- The field list of claim C4 — it includes `address`, which the source's
comparison loop does not visit. -/
def claim_compare_fields : List String :=
  ["full_name", "phone", "address", "city", "locality"]

/-- The comparison predicate exactly as claim C4 words it: every customer
field whose lower-cased/trimmed expected value is non-empty must match the
lower-cased/trimmed actual value, and the summary must be equal to or
contain the expected summary (expected-in-actual). -/
def compare_results_claimed (actual expected : CmpRecord) : Prop :=
  (∀ key ∈ claim_compare_fields,
    pyStrip (pyLower (expected.customer.get key)) ≠ "" →
    pyStrip (pyLower (actual.customer.get key)) =
      pyStrip (pyLower (expected.customer.get key)))
  ∧ (pyStrip (pyLower actual.summary) = pyStrip (pyLower expected.summary)
     ∨ listContains (pyStrip (pyLower expected.summary)).data
         (pyStrip (pyLower actual.summary)).data = true)

/-- Claim C4 amended: the same predicate over the keys the code actually
compares — `full_name`, `phone`, `city`, `locality`; `address` is never
compared. -/
def compare_results_amended (actual expected : CmpRecord) : Prop :=
  (∀ key ∈ compare_keys,
    pyStrip (pyLower (expected.customer.get key)) ≠ "" →
    pyStrip (pyLower (actual.customer.get key)) =
      pyStrip (pyLower (expected.customer.get key)))
  ∧ (pyStrip (pyLower actual.summary) = pyStrip (pyLower expected.summary)
     ∨ listContains (pyStrip (pyLower expected.summary)).data
         (pyStrip (pyLower actual.summary)).data = true)

/-- claim C4 (counterexample): a pair whose `address` values differ (with a
non-empty expected address) and agree everywhere else: `compare_results`
returns `True` — the loop skips `address` — although the claimed predicate
is false, refuting the claimed biconditional. -/
theorem claim_C4_counterexample :
    compare_results
        { customer := { full_name := "", phone := "", address := "45 park street",
                        city := "", locality := "" }, summary := "" }
        { customer := { full_name := "", phone := "", address := "9 main road",
                        city := "", locality := "" }, summary := "" } = true
    ∧ ¬ compare_results_claimed
        { customer := { full_name := "", phone := "", address := "45 park street",
                        city := "", locality := "" }, summary := "" }
        { customer := { full_name := "", phone := "", address := "9 main road",
                        city := "", locality := "" }, summary := "" } := by
  constructor
  · rfl
  · unfold compare_results_claimed claim_compare_fields
    decide

/-- claim C4 (amended): `compare_results` returns `True` exactly when every
customer field among `full_name`, `phone`, `city`, `locality` with a
non-empty lower-cased/trimmed expected value matches exactly and the summary
is equal to or contains the expected summary — the `address` field is a
don't-care in all cases. -/
theorem claim_C4_amended_compare_iff (actual expected : CmpRecord) :
    compare_results actual expected = true ↔ compare_results_amended actual expected := by
  unfold compare_results compare_results_amended
  simp only [Bool.and_eq_true, List.all_eq_true, Bool.or_eq_true, beq_iff_eq]
  constructor
  · rintro ⟨h1, h2⟩
    refine ⟨fun key hk hne => ?_, h2⟩
    rcases h1 key hk with h | h
    · exact h
    · exact absurd h hne
  · rintro ⟨h1, h2⟩
    refine ⟨fun key hk => ?_, h2⟩
    by_cases he : pyStrip (pyLower (expected.customer.get key)) = ""
    · exact Or.inr he
    · exact Or.inl (h1 key hk he)

/-! ## Matcher invariants

For the remaining claims we need two facts about `mres`: the consumed prefix
of the input satisfies every character class of the pattern, and a capture is
a contiguous part of the consumed prefix. -/

/-- Every character class occurring in the pattern implies `P`. -/
def REPred (P : Char → Prop) : RE → Prop
  | .cls p => ∀ c, p c = true → P c
  | .eps => True
  | .bnd => True
  | .cat a b => REPred P a ∧ REPred P b
  | .alt a b => REPred P a ∧ REPred P b
  | .rep _ _ r => REPred P r
  | .grp r => REPred P r

/-- Every capture-group body in the pattern has all its classes implying `P`. -/
def CapPred (P : Char → Prop) : RE → Prop
  | .cls _ => True
  | .eps => True
  | .bnd => True
  | .cat a b => CapPred P a ∧ CapPred P b
  | .alt a b => CapPred P a ∧ CapPred P b
  | .rep _ _ r => CapPred P r
  | .grp r => REPred P r

/-! Unfolding equations for the well-founded definitions `repRun` and `mres`. -/

theorem repRun_zero (step : Option Char → List Char → List MRes) (lo : Nat)
    (hi : Option Nat) (count : Nat) (prev : Option Char) (s : List Char) :
    repRun step lo hi 0 count prev s = [] := by
  rw [repRun.eq_def]

theorem repRun_succ (step : Option Char → List Char → List MRes) (lo : Nat)
    (hi : Option Nat) (fuel count : Nat) (prev : Option Char) (s : List Char) :
    repRun step lo hi (fuel + 1) count prev s =
      (if (match hi with | some h => decide (count < h) | none => true) then
        (step prev s).flatMap fun r1 =>
          if r1.rest.length < s.length then
            (repRun step lo hi fuel (count + 1) r1.prev r1.rest).map fun r2 =>
              ⟨r2.prev, r2.rest, (r2.cap).orElse fun _ => r1.cap⟩
          else []
      else []) ++ (if lo ≤ count then [⟨prev, s, none⟩] else []) := by
  rw [repRun.eq_def]

theorem mres_cls (p : Char → Bool) (prev : Option Char) (s : List Char) :
    mres (.cls p) prev s =
      match s with
      | [] => []
      | c :: rest => if p c then [⟨some c, rest, none⟩] else [] := by
  rw [mres.eq_def]

theorem mres_eps (prev : Option Char) (s : List Char) :
    mres .eps prev s = [⟨prev, s, none⟩] := by
  rw [mres.eq_def]

theorem mres_bnd (prev : Option Char) (s : List Char) :
    mres .bnd prev s = if atBoundary prev s then [⟨prev, s, none⟩] else [] := by
  rw [mres.eq_def]

theorem mres_cat (a b : RE) (prev : Option Char) (s : List Char) :
    mres (.cat a b) prev s =
      (mres a prev s).flatMap fun r1 =>
        (mres b r1.prev r1.rest).map fun r2 =>
          ⟨r2.prev, r2.rest, (r1.cap).orElse fun _ => r2.cap⟩ := by
  rw [mres.eq_def]

theorem mres_alt (a b : RE) (prev : Option Char) (s : List Char) :
    mres (.alt a b) prev s = mres a prev s ++ mres b prev s := by
  rw [mres.eq_def]

theorem mres_rep (lo : Nat) (hi : Option Nat) (r : RE) (prev : Option Char) (s : List Char) :
    mres (.rep lo hi r) prev s =
      repRun (fun p t => mres r p t) lo hi (s.length + 1) 0 prev s := by
  rw [mres.eq_def]

theorem mres_grp (r : RE) (prev : Option Char) (s : List Char) :
    mres (.grp r) prev s =
      (mres r prev s).map fun r1 =>
        ⟨r1.prev, r1.rest, some (s.take (s.length - r1.rest.length))⟩ := by
  rw [mres.eq_def]

theorem repRun_chars (P : Char → Prop) (step : Option Char → List Char → List MRes)
    (hstep : ∀ prev s res, res ∈ step prev s → ∃ t, s = t ++ res.rest ∧ ∀ c ∈ t, P c) :
    ∀ fuel lo hi count prev s res, res ∈ repRun step lo hi fuel count prev s →
      ∃ t, s = t ++ res.rest ∧ ∀ c ∈ t, P c := by
  intro fuel
  induction fuel with
  | zero =>
    intro lo hi count prev s res h
    simp [repRun_zero] at h
  | succ n ih =>
    intro lo hi count prev s res h
    rw [repRun_succ] at h
    simp only [List.mem_append] at h
    rcases h with h | h
    · split at h
      · simp only [List.mem_flatMap] at h
        obtain ⟨r1, hr1, h⟩ := h
        split at h
        · simp only [List.mem_map] at h
          obtain ⟨r2, hr2, rfl⟩ := h
          obtain ⟨t1, ht1, hp1⟩ := hstep prev s r1 hr1
          obtain ⟨t2, ht2, hp2⟩ := ih lo hi (count + 1) r1.prev r1.rest r2 hr2
          refine ⟨t1 ++ t2, ?_, ?_⟩
          · simp [ht1, ht2]
          · intro c hc
            rcases List.mem_append.mp hc with hc | hc
            exacts [hp1 c hc, hp2 c hc]
        · simp at h
      · simp at h
    · split at h
      · simp only [List.mem_singleton] at h
        subst h
        exact ⟨[], rfl, by simp⟩
      · simp at h

theorem mres_chars (P : Char → Prop) :
    ∀ (r : RE), REPred P r → ∀ prev s res, res ∈ mres r prev s →
      ∃ t, s = t ++ res.rest ∧ ∀ c ∈ t, P c := by
  intro r
  induction r with
  | cls p =>
    intro hP prev s res h
    rw [mres_cls] at h
    cases s with
    | nil => simp at h
    | cons c rest =>
      dsimp only at h
      by_cases hc : p c
      · rw [if_pos hc] at h
        simp only [List.mem_singleton] at h
        subst h
        exact ⟨[c], rfl, by simpa using hP c hc⟩
      · rw [if_neg hc] at h
        simp at h
  | eps =>
    intro _ prev s res h
    rw [mres_eps] at h
    simp only [List.mem_singleton] at h
    subst h
    exact ⟨[], rfl, by simp⟩
  | bnd =>
    intro _ prev s res h
    rw [mres_bnd] at h
    split at h
    · simp only [List.mem_singleton] at h
      subst h
      exact ⟨[], rfl, by simp⟩
    · simp at h
  | cat a b iha ihb =>
    intro hP prev s res h
    rw [mres_cat] at h
    simp only [List.mem_flatMap, List.mem_map] at h
    obtain ⟨r1, hr1, r2, hr2, rfl⟩ := h
    obtain ⟨t1, ht1, hp1⟩ := iha hP.1 prev s r1 hr1
    obtain ⟨t2, ht2, hp2⟩ := ihb hP.2 r1.prev r1.rest r2 hr2
    refine ⟨t1 ++ t2, ?_, ?_⟩
    · simp [ht1, ht2]
    · intro c hc
      rcases List.mem_append.mp hc with hc | hc
      exacts [hp1 c hc, hp2 c hc]
  | alt a b iha ihb =>
    intro hP prev s res h
    rw [mres_alt] at h
    rcases List.mem_append.mp h with h | h
    exacts [iha hP.1 prev s res h, ihb hP.2 prev s res h]
  | rep lo hi r ihr =>
    intro hP prev s res h
    rw [mres_rep] at h
    exact repRun_chars P _ (fun p t => ihr hP p t) (s.length + 1) lo hi 0 prev s res h
  | grp r ihr =>
    intro hP prev s res h
    rw [mres_grp] at h
    simp only [List.mem_map] at h
    obtain ⟨r1, hr1, rfl⟩ := h
    obtain ⟨t, ht, hp⟩ := ihr hP prev s r1 hr1
    exact ⟨t, ht, hp⟩

/-- Like `mres_chars` with the trivial predicate: the rest is a suffix. -/
theorem REPred_true (r : RE) : REPred (fun _ => True) r := by
  induction r <;> simp [REPred, *]

/-- Like `mres_chars` with the trivial predicate: the rest is a suffix. -/
theorem mres_rest_suffix (r : RE) (prev : Option Char) (s : List Char) (res : MRes)
    (h : res ∈ mres r prev s) : ∃ t, s = t ++ res.rest := by
  obtain ⟨t, ht, -⟩ := mres_chars (fun _ => True) r (REPred_true r) prev s res h
  exact ⟨t, ht⟩

theorem repRun_cap (P : Char → Prop) (step : Option Char → List Char → List MRes)
    (hstep : ∀ prev s res, res ∈ step prev s → ∀ l, res.cap = some l → ∀ c ∈ l, P c) :
    ∀ fuel lo hi count prev s res, res ∈ repRun step lo hi fuel count prev s →
      ∀ l, res.cap = some l → ∀ c ∈ l, P c := by
  intro fuel
  induction fuel with
  | zero =>
    intro lo hi count prev s res h
    simp [repRun_zero] at h
  | succ n ih =>
    intro lo hi count prev s res h l hl
    rw [repRun_succ] at h
    simp only [List.mem_append] at h
    rcases h with h | h
    · split at h
      · simp only [List.mem_flatMap] at h
        obtain ⟨r1, hr1, h⟩ := h
        split at h
        · simp only [List.mem_map] at h
          obtain ⟨r2, hr2, rfl⟩ := h
          simp only at hl
          cases hc2 : r2.cap with
          | some l2 =>
            rw [hc2] at hl
            simp only [Option.orElse] at hl
            exact ih lo hi (count + 1) r1.prev r1.rest r2 hr2 l (hc2.trans hl)
          | none =>
            rw [hc2] at hl
            simp only [Option.orElse] at hl
            exact hstep prev s r1 hr1 l hl
        · simp at h
      · simp at h
    · split at h
      · simp only [List.mem_singleton] at h
        subst h
        simp at hl
      · simp at h

theorem mres_cap (P : Char → Prop) :
    ∀ (r : RE), CapPred P r → ∀ prev s res, res ∈ mres r prev s →
      ∀ l, res.cap = some l → ∀ c ∈ l, P c := by
  intro r
  induction r with
  | cls p =>
    intro _ prev s res h l hl
    rw [mres_cls] at h
    cases s with
    | nil => simp at h
    | cons c rest =>
      dsimp only at h
      by_cases hc : p c
      · rw [if_pos hc] at h
        simp only [List.mem_singleton] at h
        subst h
        simp at hl
      · rw [if_neg hc] at h
        simp at h
  | eps =>
    intro _ prev s res h l hl
    rw [mres_eps] at h
    simp only [List.mem_singleton] at h
    subst h
    simp at hl
  | bnd =>
    intro _ prev s res h l hl
    rw [mres_bnd] at h
    split at h
    · simp only [List.mem_singleton] at h
      subst h
      simp at hl
    · simp at h
  | cat a b iha ihb =>
    intro hP prev s res h l hl
    rw [mres_cat] at h
    simp only [List.mem_flatMap, List.mem_map] at h
    obtain ⟨r1, hr1, r2, hr2, rfl⟩ := h
    simp only at hl
    cases hc1 : r1.cap with
    | some l1 =>
      rw [hc1] at hl
      simp only [Option.orElse] at hl
      exact iha hP.1 prev s r1 hr1 l (hc1.trans hl)
    | none =>
      rw [hc1] at hl
      simp only [Option.orElse] at hl
      exact ihb hP.2 r1.prev r1.rest r2 hr2 l hl
  | alt a b iha ihb =>
    intro hP prev s res h l hl
    rw [mres_alt] at h
    rcases List.mem_append.mp h with h | h
    exacts [iha hP.1 prev s res h l hl, ihb hP.2 prev s res h l hl]
  | rep lo hi r ihr =>
    intro hP prev s res h l hl
    rw [mres_rep] at h
    exact repRun_cap P _ (fun p t res' h' => ihr hP p t res' h')
      (s.length + 1) lo hi 0 prev s res h l hl
  | grp r _ =>
    intro hP prev s res h l hl
    rw [mres_grp] at h
    simp only [List.mem_map] at h
    obtain ⟨r1, hr1, rfl⟩ := h
    simp only [Option.some.injEq] at hl
    obtain ⟨t, ht, hp⟩ := mres_chars P r hP prev s r1 hr1
    have htake : s.take (s.length - r1.rest.length) = t := by
      subst ht
      simp [List.length_append]
    rw [htake] at hl
    subst hl
    exact hp

/-- A capture is made of characters of the searched text. -/
theorem repRun_cap_mem (step : Option Char → List Char → List MRes)
    (hrest : ∀ prev s res, res ∈ step prev s → ∃ t, s = t ++ res.rest)
    (hstep : ∀ prev s res, res ∈ step prev s → ∀ l, res.cap = some l → ∀ c ∈ l, c ∈ s) :
    ∀ fuel lo hi count prev s res, res ∈ repRun step lo hi fuel count prev s →
      ∀ l, res.cap = some l → ∀ c ∈ l, c ∈ s := by
  intro fuel
  induction fuel with
  | zero =>
    intro lo hi count prev s res h
    simp [repRun_zero] at h
  | succ n ih =>
    intro lo hi count prev s res h l hl
    rw [repRun_succ] at h
    simp only [List.mem_append] at h
    rcases h with h | h
    · split at h
      · simp only [List.mem_flatMap] at h
        obtain ⟨r1, hr1, h⟩ := h
        split at h
        · simp only [List.mem_map] at h
          obtain ⟨r2, hr2, rfl⟩ := h
          simp only at hl
          cases hc2 : r2.cap with
          | some l2 =>
            rw [hc2] at hl
            simp only [Option.orElse] at hl
            intro c hc
            obtain ⟨t, ht⟩ := hrest prev s r1 hr1
            have := ih lo hi (count + 1) r1.prev r1.rest r2 hr2 l (hc2.trans hl) c hc
            rw [ht]
            exact List.mem_append.mpr (Or.inr this)
          | none =>
            rw [hc2] at hl
            simp only [Option.orElse] at hl
            exact hstep prev s r1 hr1 l hl
        · simp at h
      · simp at h
    · split at h
      · simp only [List.mem_singleton] at h
        subst h
        simp at hl
      · simp at h

theorem mres_cap_mem :
    ∀ (r : RE), ∀ prev s res, res ∈ mres r prev s →
      ∀ l, res.cap = some l → ∀ c ∈ l, c ∈ s := by
  intro r
  induction r with
  | cls p =>
    intro prev s res h l hl
    rw [mres_cls] at h
    cases s with
    | nil => simp at h
    | cons c rest =>
      dsimp only at h
      by_cases hc : p c
      · rw [if_pos hc] at h
        simp only [List.mem_singleton] at h
        subst h
        simp at hl
      · rw [if_neg hc] at h
        simp at h
  | eps =>
    intro prev s res h l hl
    rw [mres_eps] at h
    simp only [List.mem_singleton] at h
    subst h
    simp at hl
  | bnd =>
    intro prev s res h l hl
    rw [mres_bnd] at h
    split at h
    · simp only [List.mem_singleton] at h
      subst h
      simp at hl
    · simp at h
  | cat a b iha ihb =>
    intro prev s res h l hl
    rw [mres_cat] at h
    simp only [List.mem_flatMap, List.mem_map] at h
    obtain ⟨r1, hr1, r2, hr2, rfl⟩ := h
    simp only at hl
    cases hc1 : r1.cap with
    | some l1 =>
      rw [hc1] at hl
      simp only [Option.orElse] at hl
      exact iha prev s r1 hr1 l (hc1.trans hl)
    | none =>
      rw [hc1] at hl
      simp only [Option.orElse] at hl
      intro c hc
      obtain ⟨t, ht⟩ := mres_rest_suffix a prev s r1 hr1
      have := ihb r1.prev r1.rest r2 hr2 l hl c hc
      rw [ht]
      exact List.mem_append.mpr (Or.inr this)
  | alt a b iha ihb =>
    intro prev s res h l hl
    rw [mres_alt] at h
    rcases List.mem_append.mp h with h | h
    exacts [iha prev s res h l hl, ihb prev s res h l hl]
  | rep lo hi r ihr =>
    intro prev s res h l hl
    rw [mres_rep] at h
    exact repRun_cap_mem _ (fun p t res' h' => mres_rest_suffix r p t res' h')
      (fun p t res' h' => ihr p t res' h') (s.length + 1) lo hi 0 prev s res h l hl
  | grp r _ =>
    intro prev s res h l hl
    rw [mres_grp] at h
    simp only [List.mem_map] at h
    obtain ⟨r1, hr1, rfl⟩ := h
    simp only [Option.some.injEq] at hl
    subst hl
    exact fun c hc => List.take_subset _ _ hc

/-! Search-level corollaries. -/

theorem searchGo_zero (r : RE) (prev : Option Char) (s : List Char) :
    searchGo r 0 prev s = none := rfl

theorem searchGo_succ (r : RE) (fuel : Nat) (prev : Option Char) (s : List Char) :
    searchGo r (fuel + 1) prev s =
      match (mres r prev s).head? with
      | some res => some res
      | none =>
        match s with
        | [] => none
        | c :: rest => searchGo r fuel (some c) rest := rfl

theorem searchGo_cap (P : Char → Prop) (r : RE) (hr : CapPred P r) :
    ∀ fuel prev s res, searchGo r fuel prev s = some res →
      ∀ l, res.cap = some l → ∀ c ∈ l, P c := by
  intro fuel
  induction fuel with
  | zero =>
    intro prev s res h
    simp [searchGo_zero] at h
  | succ n ih =>
    intro prev s res h l hl
    rw [searchGo_succ] at h
    cases hh : (mres r prev s).head? with
    | some res' =>
      rw [hh] at h
      obtain rfl : res' = res := by simpa using h
      exact mres_cap P r hr prev s _ (List.mem_of_mem_head? hh) l hl
    | none =>
      rw [hh] at h
      cases s with
      | nil => simp at h
      | cons c rest => exact ih (some c) rest res h l hl

theorem searchGo_cap_mem (r : RE) :
    ∀ fuel prev s res, searchGo r fuel prev s = some res →
      ∀ l, res.cap = some l → ∀ c ∈ l, c ∈ s := by
  intro fuel
  induction fuel with
  | zero =>
    intro prev s res h
    simp [searchGo_zero] at h
  | succ n ih =>
    intro prev s res h l hl
    rw [searchGo_succ] at h
    cases hh : (mres r prev s).head? with
    | some res' =>
      rw [hh] at h
      obtain rfl : res' = res := by simpa using h
      exact mres_cap_mem r prev s _ (List.mem_of_mem_head? hh) l hl
    | none =>
      rw [hh] at h
      cases s with
      | nil => simp at h
      | cons c rest =>
        intro ch hc
        exact List.mem_cons_of_mem c (ih (some c) rest res h l hl ch hc)

theorem research_cap (P : Char → Prop) (r : RE) (hr : CapPred P r) (s : List Char)
    (res : MRes) (h : research r s = some res) (l : List Char) (hl : res.cap = some l) :
    ∀ c ∈ l, P c :=
  searchGo_cap P r hr (s.length + 1) none s res h l hl

theorem research_cap_mem (r : RE) (s : List Char) (res : MRes)
    (h : research r s = some res) (l : List Char) (hl : res.cap = some l) :
    ∀ c ∈ l, c ∈ s :=
  searchGo_cap_mem r (s.length + 1) none s res h l hl

/-! ## claim C5: the phone field is empty or exactly ten digits -/

/-- Characters a phone capture group can contain: digits or whitespace
(classes `[0-9\s]` and `[0-9]`). -/
def digitOrSpace (c : Char) : Prop := pyIsDigit c = true ∨ pySpaceChar c = true

theorem capPred_foldr_cls (P : Char → Prop) (l : List Char) (f : Char → Char → Bool) :
    CapPred P (l.foldr (fun c acc => RE.cat (RE.cls (f c)) acc) RE.eps) := by
  induction l with
  | nil => exact trivial
  | cons c cs ih => exact ⟨trivial, ih⟩

theorem capPred_reLitI (P : Char → Prop) (s : String) : CapPred P (reLitI s) :=
  capPred_foldr_cls P s.data _

theorem repred_digitSpace15 : REPred digitOrSpace (RE.rep 10 (some 15) reDigitSpace) :=
  fun _ hc => (Bool.or_eq_true _ _).mp hc

theorem repred_digitSpace10 : REPred digitOrSpace (RE.rep 10 (some 10) reDigitSpace) :=
  fun _ hc => (Bool.or_eq_true _ _).mp hc

theorem repred_digit10 : REPred digitOrSpace (RE.rep 10 (some 10) reDigit) :=
  fun _ hc => Or.inl hc

theorem phone_patterns_capPred : ∀ p ∈ phone_patterns, CapPred digitOrSpace p := by
  intro p hp
  rw [phone_patterns] at hp
  simp only [List.mem_cons, List.not_mem_nil, or_false] at hp
  rcases hp with rfl | rfl | rfl | rfl | rfl
  · exact ⟨capPred_reLitI _ _, trivial,
      ⟨⟨capPred_reLitI _ _, trivial⟩, trivial⟩, repred_digitSpace15⟩
  · exact ⟨capPred_reLitI _ _, trivial, capPred_reLitI _ _, trivial, repred_digitSpace15⟩
  · exact ⟨capPred_reLitI _ _, trivial, repred_digitSpace15⟩
  · exact repred_digit10
  · exact repred_digitSpace10

/-- Conclusion of claim C5 as a boolean predicate: the phone value is the
empty string or a string of exactly ten digit characters. -/
def phoneShapeOK (p : String) : Bool :=
  p == "" || (p.length == 10 && p.data.all pyIsDigit)

theorem phoneScan_cons (i : Nat) (p : RE) (ps : List RE) (s : List Char) :
    phoneScan i (p :: ps) s =
      match research p s with
      | some res =>
        match res.cap with
        | some l =>
          if 10 ≤ (l.filter fun c => !pySpaceChar c).length then
            (⟨(l.filter fun c => !pySpaceChar c).drop
                ((l.filter fun c => !pySpaceChar c).length - 10)⟩,
              0.9 + (i : ℚ) * 0.02)
          else phoneScan (i + 1) ps s
        | none => phoneScan (i + 1) ps s
      | none => phoneScan (i + 1) ps s := rfl

theorem phoneScan_shape : ∀ (ps : List RE) (i : Nat) (s : List Char),
    (∀ p ∈ ps, CapPred digitOrSpace p) →
    phoneShapeOK (phoneScan i ps s).1 = true := by
  intro ps
  induction ps with
  | nil =>
    intro i s _
    rfl
  | cons p ps ih =>
    intro i s hcap
    rw [phoneScan_cons]
    cases hres : research p s with
    | none =>
      dsimp only
      exact ih (i + 1) s fun q hq => hcap q (List.mem_cons_of_mem p hq)
    | some res =>
      dsimp only
      cases hcapr : res.cap with
      | none =>
        dsimp only
        exact ih (i + 1) s fun q hq => hcap q (List.mem_cons_of_mem p hq)
      | some l =>
        dsimp only
        by_cases h10 : 10 ≤ (l.filter fun c => !pySpaceChar c).length
        · rw [if_pos h10]
          have hdig : ∀ c ∈ l.filter fun c => !pySpaceChar c, pyIsDigit c = true := by
            intro c hc
            obtain ⟨hcl, hcs⟩ := List.mem_filter.mp hc
            rcases research_cap digitOrSpace p (hcap p (List.mem_cons_self p ps)) s res
              hres l hcapr c hcl with hd | hs
            · exact hd
            · simp [hs] at hcs
          simp only [phoneShapeOK, Bool.or_eq_true, Bool.and_eq_true, beq_iff_eq,
            List.all_eq_true]
          right
          constructor
          · show (_ : String).length = 10
            have : ((l.filter fun c => !pySpaceChar c).drop
                ((l.filter fun c => !pySpaceChar c).length - 10)).length =
                (l.filter fun c => !pySpaceChar c).length -
                  ((l.filter fun c => !pySpaceChar c).length - 10) := List.length_drop _ _
            show ((l.filter fun c => !pySpaceChar c).drop
                ((l.filter fun c => !pySpaceChar c).length - 10)).length = 10
            omega
          · intro c hc
            exact hdig c (List.drop_subset _ _ hc)
        · rw [if_neg h10]
          exact ih (i + 1) s fun q hq => hcap q (List.mem_cons_of_mem p hq)

/-- claim C5: for every input text the phone field of the pipeline result —
and of the deterministic regex path in particular — is either empty or a
string of exactly ten digit characters. -/
theorem claim_C5_phone_empty_or_ten_digits (fuzz : String → String → Nat)
    (now now2 : String) (client : Option (String → Option LlmRaw)) (text : String) :
    phoneShapeOK (extract_customer_data fuzz now now2 client text).customer.phone = true
    ∧ phoneShapeOK (_extract_with_regex fuzz now text).customer.phone = true := by
  have hre : (_extract_with_regex fuzz now text).customer.phone =
      (phoneScan 0 phone_patterns (_convert_spoken_numbers text).data).1 := by
    rw [regex_customer_eq]
  have h := phoneScan_shape phone_patterns 0 (_convert_spoken_numbers text).data
    phone_patterns_capPred
  rw [extract_eq_regex, hre]
  exact ⟨h, h⟩

/-! ## claim C6: every confidence score lies in `[0, 1]` -/

/-- Conclusion of claim C6 as a boolean predicate over a confidence dict. -/
def confBoundsOK (m : List (String × ℚ)) : Bool :=
  m.all fun kv => decide (0 ≤ kv.2) && decide (kv.2 ≤ 1)

theorem scanPatterns_cons (base inc : ℚ) (i : Nat) (p : RE) (ps : List RE) (s : List Char) :
    scanPatterns base inc i (p :: ps) s =
      match research p s with
      | some res =>
        match res.cap with
        | some l => (pyStrip ⟨l⟩, base + (i : ℚ) * inc)
        | none => scanPatterns base inc (i + 1) ps s
      | none => scanPatterns base inc (i + 1) ps s := rfl

theorem summaryScan_cons (i : Nat) (p : RE) (ps : List RE) (s : List Char) :
    summaryScan i (p :: ps) s =
      match research p s with
      | some res =>
        match res.cap with
        | some l =>
          (⟨((pyStripList l).reverse.dropWhile fun c => c == '.').reverse⟩,
            0.8 + (i : ℚ) * 0.05)
        | none => summaryScan (i + 1) ps s
      | none => summaryScan (i + 1) ps s := rfl

/-- A cascade confidence is 0 (no pattern matched) or `base + k * inc` for
the 0-based index `k` of the first matching pattern. -/
theorem scanPatterns_conf (base inc : ℚ) :
    ∀ (ps : List RE) (i : Nat) (s : List Char),
      (scanPatterns base inc i ps s).2 = 0 ∨
      ∃ k, i ≤ k ∧ k < i + ps.length ∧
        (scanPatterns base inc i ps s).2 = base + (k : ℚ) * inc := by
  intro ps
  induction ps with
  | nil =>
    intro i s
    exact Or.inl rfl
  | cons p ps ih =>
    intro i s
    rw [scanPatterns_cons]
    cases hres : research p s with
    | none =>
      dsimp only
      rcases ih (i + 1) s with h | ⟨k, hk1, hk2, hk3⟩
      · exact Or.inl h
      · exact Or.inr ⟨k, by omega, by simp only [List.length_cons]; omega, hk3⟩
    | some res =>
      dsimp only
      cases hcap : res.cap with
      | none =>
        dsimp only
        rcases ih (i + 1) s with h | ⟨k, hk1, hk2, hk3⟩
        · exact Or.inl h
        · exact Or.inr ⟨k, by omega, by simp only [List.length_cons]; omega, hk3⟩
      | some l =>
        dsimp only
        exact Or.inr ⟨i, le_refl i, by simp only [List.length_cons]; omega, rfl⟩

theorem phoneScan_conf :
    ∀ (ps : List RE) (i : Nat) (s : List Char),
      (phoneScan i ps s).2 = 0 ∨
      ∃ k, i ≤ k ∧ k < i + ps.length ∧
        (phoneScan i ps s).2 = 0.9 + (k : ℚ) * 0.02 := by
  intro ps
  induction ps with
  | nil =>
    intro i s
    exact Or.inl rfl
  | cons p ps ih =>
    intro i s
    rw [phoneScan_cons]
    cases hres : research p s with
    | none =>
      dsimp only
      rcases ih (i + 1) s with h | ⟨k, hk1, hk2, hk3⟩
      · exact Or.inl h
      · exact Or.inr ⟨k, by omega, by simp only [List.length_cons]; omega, hk3⟩
    | some res =>
      dsimp only
      cases hcap : res.cap with
      | none =>
        dsimp only
        rcases ih (i + 1) s with h | ⟨k, hk1, hk2, hk3⟩
        · exact Or.inl h
        · exact Or.inr ⟨k, by omega, by simp only [List.length_cons]; omega, hk3⟩
      | some l =>
        dsimp only
        by_cases h10 : 10 ≤ (l.filter fun c => !pySpaceChar c).length
        · rw [if_pos h10]
          exact Or.inr ⟨i, le_refl i, by simp only [List.length_cons]; omega, rfl⟩
        · rw [if_neg h10]
          rcases ih (i + 1) s with h | ⟨k, hk1, hk2, hk3⟩
          · exact Or.inl h
          · exact Or.inr ⟨k, by omega, by simp only [List.length_cons]; omega, hk3⟩

theorem summaryScan_conf :
    ∀ (ps : List RE) (i : Nat) (s : List Char),
      (summaryScan i ps s).2 = 0 ∨
      ∃ k, i ≤ k ∧ k < i + ps.length ∧
        (summaryScan i ps s).2 = 0.8 + (k : ℚ) * 0.05 := by
  intro ps
  induction ps with
  | nil =>
    intro i s
    exact Or.inl rfl
  | cons p ps ih =>
    intro i s
    rw [summaryScan_cons]
    cases hres : research p s with
    | none =>
      dsimp only
      rcases ih (i + 1) s with h | ⟨k, hk1, hk2, hk3⟩
      · exact Or.inl h
      · exact Or.inr ⟨k, by omega, by simp only [List.length_cons]; omega, hk3⟩
    | some res =>
      dsimp only
      cases hcap : res.cap with
      | none =>
        dsimp only
        rcases ih (i + 1) s with h | ⟨k, hk1, hk2, hk3⟩
        · exact Or.inl h
        · exact Or.inr ⟨k, by omega, by simp only [List.length_cons]; omega, hk3⟩
      | some l =>
        dsimp only
        exact Or.inr ⟨i, le_refl i, by simp only [List.length_cons]; omega, rfl⟩

/-- Generic `[0, 1]` bound for a cascade confidence. -/
theorem scan_conf_in_bounds (x base inc : ℚ) (len : Nat)
    (h : x = 0 ∨ ∃ k, 0 ≤ k ∧ k < 0 + len ∧ x = base + (k : ℚ) * inc)
    (hbase : 0 ≤ base) (hinc : 0 ≤ inc)
    (htop : base + ((len : ℚ) - 1) * inc ≤ 1) :
    0 ≤ x ∧ x ≤ 1 := by
  rcases h with h | ⟨k, -, hk2, hk3⟩
  · rw [h]
    norm_num
  · subst hk3
    have hkq : (k : ℚ) ≤ (len : ℚ) - 1 := by
      have hk : (k : ℚ) + 1 ≤ (len : ℚ) := by
        exact_mod_cast Nat.succ_le_of_lt (by omega)
      linarith
    have hk0 : (0 : ℚ) ≤ (k : ℚ) := Nat.cast_nonneg k
    constructor
    · have := mul_nonneg hk0 hinc
      linarith
    · have := mul_le_mul_of_nonneg_right hkq hinc
      linarith

/-- The best fuzzy score is a value of the scorer. -/
theorem extractOneGo_score (fuzz : String → String → Nat) (q : String) :
    ∀ (l : List String) (best : String × Nat),
      (extractOneGo fuzz q best l).2 = best.2 ∨
      ∃ c, (extractOneGo fuzz q best l).2 = fuzz q c := by
  intro l
  induction l with
  | nil =>
    intro best
    exact Or.inl rfl
  | cons c cs ih =>
    intro best
    rw [extractOneGo]
    rcases ih (if best.2 < fuzz q c then (c, fuzz q c) else best) with h | ⟨d, hd⟩
    · rw [h]
      by_cases hb : best.2 < fuzz q c
      · rw [if_pos hb]
        exact Or.inr ⟨c, rfl⟩
      · rw [if_neg hb]
        exact Or.inl rfl
    · exact Or.inr ⟨d, hd⟩

theorem extractOne_score (fuzz : String → String → Nat) (q : String) :
    ∀ (l : List String) (bs : String × Nat), extractOne fuzz q l = some bs →
      ∃ c, bs.2 = fuzz q c := by
  intro l bs h
  cases l with
  | nil => simp [extractOne] at h
  | cons c cs =>
    rw [extractOne] at h
    obtain rfl : extractOneGo fuzz q (c, fuzz q c) cs = bs := by simpa using h
    rcases extractOneGo_score fuzz q cs (c, fuzz q c) with h | ⟨d, hd⟩
    · exact ⟨c, h⟩
    · exact ⟨d, hd⟩

theorem cityScan_conf_in_bounds (fuzz : String → String → Nat)
    (hf : ∀ a b, fuzz a b ≤ 100) (t : String) :
    0 ≤ (cityScan fuzz t).2 ∧ (cityScan fuzz t).2 ≤ 1 := by
  unfold cityScan
  cases hfind : indian_cities.find? fun city => listContains city.data t.data with
  | some city =>
    dsimp only
    norm_num
  | none =>
    dsimp only
    by_cases hempty : ((pySplit t).filter fun w => 3 < w.length).isEmpty
    · rw [if_pos hempty]
      norm_num
    · rw [if_neg hempty]
      cases hone : extractOne fuzz t indian_cities with
      | none =>
        dsimp only
        norm_num
      | some bs =>
        dsimp only
        by_cases hsc : 80 < bs.2
        · rw [if_pos hsc]
          obtain ⟨c, hc⟩ := extractOne_score fuzz t indian_cities bs hone
          have h100 : bs.2 ≤ 100 := hc ▸ hf t c
          constructor
          · positivity
          · rw [div_le_one (by norm_num)]
            exact_mod_cast h100
        · rw [if_neg hsc]
          norm_num

theorem confBoundsOK_iff (m : List (String × ℚ)) :
    confBoundsOK m = true ↔ ∀ kv ∈ m, 0 ≤ kv.2 ∧ kv.2 ≤ 1 := by
  simp [confBoundsOK, List.all_eq_true]

theorem regex_conf_bounds (fuzz : String → String → Nat)
    (hf : ∀ a b, fuzz a b ≤ 100) (now text : String) :
    confBoundsOK (_extract_with_regex fuzz now text).confidence_scores = true := by
  rw [regex_confs_eq, confBoundsOK_iff]
  simp only [List.forall_mem_cons]
  refine ⟨?_, ?_, ?_, ?_, ?_, ?_, List.forall_mem_nil _⟩
  · exact scan_conf_in_bounds _ 0.8 0.04 5
      (scanPatterns_conf 0.8 0.04 name_patterns 0 _) (by norm_num) (by norm_num)
      (by norm_num)
  · exact scan_conf_in_bounds _ 0.9 0.02 5
      (phoneScan_conf phone_patterns 0 _) (by norm_num) (by norm_num) (by norm_num)
  · exact scan_conf_in_bounds _ 0.7 0.05 4
      (scanPatterns_conf 0.7 0.05 address_patterns 0 _) (by norm_num) (by norm_num)
      (by norm_num)
  · exact cityScan_conf_in_bounds fuzz hf _
  · exact scan_conf_in_bounds _ 0.75 0.05 4
      (scanPatterns_conf 0.75 0.05 locality_patterns 0 _) (by norm_num) (by norm_num)
      (by norm_num)
  · exact scan_conf_in_bounds _ 0.8 0.05 3
      (summaryScan_conf summary_patterns 0 _) (by norm_num) (by norm_num) (by norm_num)

/-- claim C6: for every input text (and any scorer within the documented
0..100 range of `fuzzywuzzy`), every value of the returned confidence dict
lies in `[0, 1]`, on the pipeline path and on the deterministic path alike. -/
theorem claim_C6_confidence_bounds (fuzz : String → String → Nat)
    (hf : ∀ a b, fuzz a b ≤ 100) (now now2 : String)
    (client : Option (String → Option LlmRaw)) (text : String) :
    confBoundsOK (extract_customer_data fuzz now now2 client text).confidence_scores = true
    ∧ confBoundsOK (_extract_with_regex fuzz now text).confidence_scores = true := by
  rw [extract_eq_regex]
  exact ⟨regex_conf_bounds fuzz hf now text, regex_conf_bounds fuzz hf now text⟩

/-- Witness for claim C6 at a concrete scorer, clock and input. -/
theorem claim_C6_confidence_bounds_witness :
    confBoundsOK (extract_customer_data (fun _ _ => 0) ("2024-01-01") ("2024-01-02")
        none ("customer amit verma called")).confidence_scores = true
    ∧ confBoundsOK (_extract_with_regex (fun _ _ => 0) ("2024-01-01")
        ("customer amit verma called")).confidence_scores = true :=
  claim_C6_confidence_bounds (fun _ _ => 0) (fun _ _ => Nat.zero_le 100)
    ("2024-01-01") ("2024-01-02") none ("customer amit verma called")

/-! ## claim C10: casing of the city and locality fields -/

/-- Conclusion predicate: the value is a fixed point of `str.title`. -/
def isTitleCased (s : String) : Bool := pyTitle s == s

/-- Conclusion predicate: the value has no ASCII uppercase character. -/
def allLowerOK (s : String) : Bool := s.data.all fun c => !pyIsUpper c

theorem pyIsUpper_ofNat_shift (n : Nat) (h1 : 65 ≤ n) (h2 : n ≤ 90) :
    pyIsUpper (Char.ofNat (n + 32)) = false := by
  unfold pyIsUpper
  interval_cases n <;> decide

theorem pyLowerChar_not_upper (c : Char) : pyIsUpper (pyLowerChar c) = false := by
  unfold pyLowerChar
  by_cases h : pyIsUpper c = true
  · rw [if_pos h]
    unfold pyIsUpper at h
    rw [Bool.and_eq_true, decide_eq_true_eq, decide_eq_true_eq] at h
    exact pyIsUpper_ofNat_shift c.toNat h.1 h.2
  · rw [if_neg h]
    exact Bool.eq_false_iff.mpr h

theorem pyStripList_subset (l : List Char) : ∀ c ∈ pyStripList l, c ∈ l := by
  intro c hc
  unfold pyStripList at hc
  rw [List.mem_reverse] at hc
  have h1 : c ∈ (l.dropWhile pySpaceChar).reverse :=
    (List.dropWhile_sublist _).subset hc
  rw [List.mem_reverse] at h1
  exact (List.dropWhile_sublist _).subset h1

theorem pySplitGo_nil (acc : List Char) :
    pySplitGo [] acc = if acc.isEmpty then [] else [acc.reverse] := rfl

theorem pySplitGo_cons (a : Char) (rest acc : List Char) :
    pySplitGo (a :: rest) acc =
      if pySpaceChar a then
        if acc.isEmpty then pySplitGo rest [] else acc.reverse :: pySplitGo rest []
      else pySplitGo rest (a :: acc) := rfl

theorem pySplitGo_chars :
    ∀ (l acc w : List Char), w ∈ pySplitGo l acc → ∀ c ∈ w, c ∈ l ∨ c ∈ acc := by
  intro l
  induction l with
  | nil =>
    intro acc w hw c hc
    rw [pySplitGo_nil] at hw
    split at hw
    · simp at hw
    · simp only [List.mem_singleton] at hw
      subst hw
      exact Or.inr (List.mem_reverse.mp hc)
  | cons a rest ih =>
    intro acc w hw c hc
    rw [pySplitGo_cons] at hw
    split at hw
    · split at hw
      · rcases ih [] w hw c hc with h | h
        · exact Or.inl (List.mem_cons_of_mem a h)
        · simp at h
      · rcases List.mem_cons.mp hw with rfl | hw2
        · exact Or.inr (List.mem_reverse.mp hc)
        · rcases ih [] w hw2 c hc with h | h
          · exact Or.inl (List.mem_cons_of_mem a h)
          · simp at h
    · rcases ih (a :: acc) w hw c hc with h | h
      · exact Or.inl (List.mem_cons_of_mem a h)
      · rcases List.mem_cons.mp h with rfl | h2
        · exact Or.inl (List.mem_cons_self _ _)
        · exact Or.inr h2

theorem pySplit_chars (s : String) : ∀ w ∈ pySplit s, ∀ c ∈ w.data, c ∈ s.data := by
  intro w hw c hc
  unfold pySplit at hw
  simp only [List.mem_map] at hw
  obtain ⟨wl, hwl, rfl⟩ := hw
  rcases pySplitGo_chars s.data [] wl hwl c hc with h | h
  · exact h
  · simp at h

theorem mem_intersperse (sep : List Char) :
    ∀ (xs : List (List Char)) (l : List Char), l ∈ xs.intersperse sep → l = sep ∨ l ∈ xs := by
  intro xs
  induction xs with
  | nil =>
    intro l hl
    simp at hl
  | cons x xs ih =>
    intro l hl
    cases xs with
    | nil =>
      simp only [List.intersperse_singleton, List.mem_singleton] at hl
      subst hl
      exact Or.inr (List.mem_singleton_self _)
    | cons y ys =>
      rw [show (x :: y :: ys).intersperse sep = x :: sep :: (y :: ys).intersperse sep
        from rfl] at hl
      rcases List.mem_cons.mp hl with rfl | hl2
      · exact Or.inr (List.mem_cons_self l (y :: ys))
      · rcases List.mem_cons.mp hl2 with rfl | hl3
        · exact Or.inl rfl
        · rcases ih l hl3 with h | h
          · exact Or.inl h
          · exact Or.inr (List.mem_cons_of_mem x h)

theorem pyJoin_chars (sep : String) (words : List String) :
    ∀ c ∈ (pyJoin sep words).data, c ∈ sep.data ∨ ∃ w ∈ words, c ∈ w.data := by
  intro c hc
  unfold pyJoin at hc
  rw [show sep.data.intercalate (words.map (·.data)) =
    ((words.map (·.data)).intersperse sep.data).flatten from rfl] at hc
  obtain ⟨l, hl, hcl⟩ := List.mem_flatten.mp hc
  rcases mem_intersperse sep.data _ l hl with rfl | h
  · exact Or.inl hcl
  · simp only [List.mem_map] at h
    obtain ⟨w, hw, rfl⟩ := h
    exact Or.inr ⟨w, hw, hcl⟩

/-- A successful assoc-list lookup comes from a member pair. -/
theorem lookup_mem (k v : String) :
    ∀ (l : List (String × String)), l.lookup k = some v → (k, v) ∈ l := by
  intro l
  induction l with
  | nil =>
    intro h
    simp [List.lookup] at h
  | cons kv rest ih =>
    intro h
    rw [List.lookup] at h
    split at h
    · obtain rfl : kv.2 = v := by simpa using h
      have hk : k = kv.1 := by
        rename_i heq
        exact eq_of_beq heq
      rw [hk]
      exact List.mem_cons_self _ _
    · exact List.mem_cons_of_mem kv (ih h)

theorem replaceGo_zero (old new s : List Char) : replaceGo old new 0 s = s := rfl

theorem replaceGo_succ (old new : List Char) (fuel : Nat) (s : List Char) :
    replaceGo old new (fuel + 1) s =
      if listStartsWith old s then
        new ++ replaceGo old new fuel (s.drop old.length)
      else
        match s with
        | [] => []
        | c :: rest => c :: replaceGo old new fuel rest := rfl

theorem replaceGo_chars (old new : List Char) :
    ∀ (fuel : Nat) (s : List Char), ∀ c ∈ replaceGo old new fuel s, c ∈ s ∨ c ∈ new := by
  intro fuel
  induction fuel with
  | zero =>
    intro s c hc
    exact Or.inl hc
  | succ n ih =>
    intro s c hc
    rw [replaceGo_succ] at hc
    split at hc
    · rcases List.mem_append.mp hc with h | h
      · exact Or.inr h
      · rcases ih (s.drop old.length) c h with h2 | h2
        · exact Or.inl (List.drop_subset _ _ h2)
        · exact Or.inr h2
    · cases s with
      | nil => simp at hc
      | cons a rest =>
        rcases List.mem_cons.mp hc with rfl | h2
        · exact Or.inl (List.mem_cons_self c rest)
        · rcases ih rest c h2 with h3 | h3
          · exact Or.inl (List.mem_cons_of_mem a h3)
          · exact Or.inr h3

theorem pyReplace_chars (s old new : String) :
    ∀ c ∈ (pyReplace s old new).data, c ∈ s.data ∨ c ∈ new.data := by
  intro c hc
  unfold pyReplace at hc
  split at hc
  · exact Or.inl hc
  · exact replaceGo_chars old.data new.data _ s.data c hc

theorem findAllGo_zero (r : RE) (prev : Option Char) (s : List Char) :
    findAllGo r 0 prev s = [] := rfl

theorem findAllGo_succ (r : RE) (fuel : Nat) (prev : Option Char) (s : List Char) :
    findAllGo r (fuel + 1) prev s =
      match (mres r prev s).head? with
      | some res =>
        let consumed := s.take (s.length - res.rest.length)
        if consumed.isEmpty then
          match s with
          | [] => []
          | c :: rest => findAllGo r fuel (some c) rest
        else
          consumed :: findAllGo r fuel res.prev res.rest
      | none =>
        match s with
        | [] => []
        | c :: rest => findAllGo r fuel (some c) rest := rfl

theorem findAllGo_chars (r : RE) :
    ∀ (fuel : Nat) (prev : Option Char) (s m : List Char),
      m ∈ findAllGo r fuel prev s → ∀ c ∈ m, c ∈ s := by
  intro fuel
  induction fuel with
  | zero =>
    intro prev s m hm
    rw [findAllGo_zero] at hm
    simp at hm
  | succ n ih =>
    intro prev s m hm c hc
    rw [findAllGo_succ] at hm
    cases hh : (mres r prev s).head? with
    | some res =>
      rw [hh] at hm
      dsimp only at hm
      split at hm
      · cases s with
        | nil => simp at hm
        | cons a rest =>
          exact List.mem_cons_of_mem a (ih (some a) rest m hm c hc)
      · rcases List.mem_cons.mp hm with rfl | hm2
        · exact List.take_subset _ _ hc
        · obtain ⟨t, ht⟩ := mres_rest_suffix r prev s res (List.mem_of_mem_head? hh)
          rw [ht]
          exact List.mem_append.mpr (Or.inr (ih res.prev res.rest m hm2 c hc))
    | none =>
      rw [hh] at hm
      cases s with
      | nil => simp at hm
      | cons a rest =>
        exact List.mem_cons_of_mem a (ih (some a) rest m hm c hc)

/-- Folding string replacements preserves a character invariant when every
replacement string satisfies it. -/
theorem foldl_pyReplace_chars (Q : Char → Prop) (f : List Char → String) :
    ∀ (items : List (List Char)),
      (∀ a ∈ items, ∀ c ∈ (f a).data, Q c) →
      ∀ (t : String), (∀ c ∈ t.data, Q c) →
      ∀ c ∈ ((items.foldl (fun t a => pyReplace t ⟨a⟩ (f a)) t)).data, Q c := by
  intro items
  induction items with
  | nil =>
    intro _ t ht c hc
    exact ht c hc
  | cons a as ih =>
    intro hnew t ht c hc
    rw [List.foldl_cons] at hc
    refine ih (fun b hb => hnew b (List.mem_cons_of_mem a hb))
      (pyReplace t ⟨a⟩ (f a)) ?_ c hc
    intro d hd
    rcases pyReplace_chars t ⟨a⟩ (f a) d hd with h | h
    · exact ht d h
    · exact hnew a (List.mem_cons_self a as) d h

/-- The output of the spoken-number normalizer contains no ASCII uppercase
character: the first pass lower-cases the text and every later step inserts
only digit strings or characters already present. -/
theorem convert_chars_not_upper (text : String) :
    ∀ c ∈ (_convert_spoken_numbers text).data, pyIsUpper c = false := by
  have hQd : ∀ kv ∈ number_map, ∀ c ∈ (kv.2 : String).data, pyIsUpper c = false := by decide
  have hlow : ∀ c ∈ (pyLower text).data, pyIsUpper c = false := by
    intro c hc
    unfold pyLower at hc
    simp only [List.mem_map] at hc
    obtain ⟨d, -, rfl⟩ := hc
    exact pyLowerChar_not_upper d
  have h0 : ∀ c ∈ (pyJoin (" ")
      ((pySplit (pyLower text)).map fun w => ((number_map.lookup w).getD w))).data,
      pyIsUpper c = false := by
    intro c hc
    rcases pyJoin_chars _ _ c hc with h | ⟨w, hw, hcw⟩
    · simp only [List.mem_singleton] at h
      subst h
      decide
    · simp only [List.mem_map] at hw
      obtain ⟨w0, hw0, rfl⟩ := hw
      cases hlk : number_map.lookup w0 with
      | some d =>
        rw [hlk, Option.getD_some] at hcw
        exact hQd _ (lookup_mem _ _ _ hlk) c hcw
      | none =>
        rw [hlk, Option.getD_none] at hcw
        exact hlow c (pySplit_chars (pyLower text) w0 hw0 c hcw)
  have h1 : ∀ c ∈ (((findAll spokenRE (pyJoin (" ")
        ((pySplit (pyLower text)).map fun w => ((number_map.lookup w).getD w))).data)).foldl
      (fun t sp => pyReplace t ⟨sp⟩ ((number_map.lookup (⟨sp⟩ : String)).getD ⟨sp⟩))
      (pyJoin (" ")
        ((pySplit (pyLower text)).map fun w => ((number_map.lookup w).getD w)))).data,
      pyIsUpper c = false := by
    refine foldl_pyReplace_chars _ _ _ ?_ _ h0
    intro sp hsp c hc
    cases hlk : number_map.lookup (⟨sp⟩ : String) with
    | some d =>
      rw [hlk, Option.getD_some] at hc
      exact hQd _ (lookup_mem _ _ _ hlk) c hc
    | none =>
      rw [hlk, Option.getD_none] at hc
      exact h0 c (findAllGo_chars spokenRE _ none _ sp hsp c hc)
  intro c hc
  refine foldl_pyReplace_chars (fun c => pyIsUpper c = false) _ _ ?_ _ h1 c hc
  intro sq hsq d hd
  have hdsq : d ∈ sq := (List.filter_subset' sq) hd
  exact h1 d (findAllGo_chars digitRunRE _ none _ sq hsq d hdsq)

/-- A cascade value is made of characters of the searched text. -/
theorem scanPatterns_val_chars (base inc : ℚ) :
    ∀ (ps : List RE) (i : Nat) (s : List Char) (c : Char),
      c ∈ (scanPatterns base inc i ps s).1.data → c ∈ s := by
  intro ps
  induction ps with
  | nil =>
    intro i s c hc
    rw [show scanPatterns base inc i ([] : List RE) s = ("", 0) from rfl] at hc
    simp at hc
  | cons p ps ih =>
    intro i s c hc
    rw [scanPatterns_cons] at hc
    cases hres : research p s with
    | none =>
      rw [hres] at hc
      exact ih (i + 1) s c hc
    | some res =>
      rw [hres] at hc
      dsimp only at hc
      cases hcap : res.cap with
      | none =>
        rw [hcap] at hc
        exact ih (i + 1) s c hc
      | some l =>
        rw [hcap] at hc
        dsimp only at hc
        have hcl : c ∈ l := pyStripList_subset l c hc
        exact research_cap_mem p s res hres l hcap c hcl

/-- The winner of the fuzzy extraction is a gazetteer entry. -/
theorem extractOneGo_mem (fuzz : String → String → Nat) (q : String) :
    ∀ (l : List String) (best : String × Nat),
      (extractOneGo fuzz q best l).1 = best.1 ∨ (extractOneGo fuzz q best l).1 ∈ l := by
  intro l
  induction l with
  | nil =>
    intro best
    exact Or.inl rfl
  | cons c cs ih =>
    intro best
    rw [extractOneGo]
    rcases ih (if best.2 < fuzz q c then (c, fuzz q c) else best) with h | h
    · rw [h]
      by_cases hb : best.2 < fuzz q c
      · rw [if_pos hb]
        exact Or.inr (List.mem_cons_self _ _)
      · rw [if_neg hb]
        exact Or.inl rfl
    · exact Or.inr (List.mem_cons_of_mem c h)

theorem extractOne_mem (fuzz : String → String → Nat) (q : String) :
    ∀ (l : List String) (bs : String × Nat), extractOne fuzz q l = some bs → bs.1 ∈ l := by
  intro l bs h
  cases l with
  | nil => simp [extractOne] at h
  | cons c cs =>
    rw [extractOne] at h
    obtain rfl : extractOneGo fuzz q (c, fuzz q c) cs = bs := by simpa using h
    rcases extractOneGo_mem fuzz q cs (c, fuzz q c) with h | h
    · rw [h]
      exact List.mem_cons_self _ _
    · exact List.mem_cons_of_mem c h

/-- On the fixed gazetteer, `str.title` is idempotent entry by entry. -/
theorem indian_cities_title_idem :
    ∀ x ∈ indian_cities, pyTitle (pyTitle x) = pyTitle x := by decide

/-- The extracted city is empty or a `str.title` fixed point. -/
theorem cityScan_title (fuzz : String → String → Nat) (t : String) :
    (cityScan fuzz t).1 = "" ∨ pyTitle (cityScan fuzz t).1 = (cityScan fuzz t).1 := by
  unfold cityScan
  cases hfind : indian_cities.find? fun city => listContains city.data t.data with
  | some city =>
    dsimp only
    exact Or.inr (indian_cities_title_idem city (List.mem_of_find?_eq_some hfind))
  | none =>
    dsimp only
    by_cases hempty : ((pySplit t).filter fun w => 3 < w.length).isEmpty
    · rw [if_pos hempty]
      exact Or.inl rfl
    · rw [if_neg hempty]
      cases hone : extractOne fuzz t indian_cities with
      | none => exact Or.inl rfl
      | some bs =>
        dsimp only
        by_cases hsc : 80 < bs.2
        · rw [if_pos hsc]
          exact Or.inr (indian_cities_title_idem bs.1 (extractOne_mem fuzz t indian_cities bs hone))
        · rw [if_neg hsc]
          exact Or.inl rfl

/-- claim C10 (amended): whenever the city field is non-empty it is
title-cased; the locality field, however, is captured verbatim from the
lower-cased normalized text and therefore never contains an uppercase
character (it is only "title-cased" when empty). -/
theorem claim_C10_amended_city_title_locality_lower (fuzz : String → String → Nat)
    (now now2 : String) (client : Option (String → Option LlmRaw)) (text : String) :
    (((extract_customer_data fuzz now now2 client text).customer.city == "")
        || isTitleCased (extract_customer_data fuzz now now2 client text).customer.city) = true
    ∧ allLowerOK (extract_customer_data fuzz now now2 client text).customer.locality = true
    ∧ (((_extract_with_regex fuzz now text).customer.city == "")
        || isTitleCased (_extract_with_regex fuzz now text).customer.city) = true
    ∧ allLowerOK (_extract_with_regex fuzz now text).customer.locality = true := by
  have hcityeq : (_extract_with_regex fuzz now text).customer.city =
      (cityScan fuzz (pyLower (_convert_spoken_numbers text))).1 := by
    rw [regex_customer_eq]
  have hloceq : (_extract_with_regex fuzz now text).customer.locality =
      (scanPatterns 0.75 0.05 0 locality_patterns (_convert_spoken_numbers text).data).1 := by
    rw [regex_customer_eq]
  rw [extract_eq_regex, hcityeq, hloceq]
  have hcity : (((cityScan fuzz (pyLower (_convert_spoken_numbers text))).1 == "")
      || isTitleCased (cityScan fuzz (pyLower (_convert_spoken_numbers text))).1) = true := by
    rcases cityScan_title fuzz (pyLower (_convert_spoken_numbers text)) with h | h
    · rw [h]
      rfl
    · rw [Bool.or_eq_true]
      exact Or.inr (beq_iff_eq.mpr h)
  have hloc : allLowerOK
      (scanPatterns 0.75 0.05 0 locality_patterns (_convert_spoken_numbers text).data).1 = true := by
    rw [allLowerOK, List.all_eq_true]
    intro c hc
    rw [convert_chars_not_upper text c
      (scanPatterns_val_chars 0.75 0.05 locality_patterns 0 _ c hc)]
    rfl
  exact ⟨hcity, hloc, hcity, hloc⟩

/-- claim C10 (counterexample): the input `"in hsr layout"` yields the
non-empty locality `"hsr layout"`, which is not title-cased. -/
theorem claim_C10_counterexample :
    (_extract_with_regex (fun _ _ => 0) ("2024-03-03") ("in hsr layout")).customer.locality =
      ("hsr layout")
    ∧ isTitleCased ("hsr layout") = false := by
  exact ⟨rfl, rfl⟩

/-! ## claim C7, general form: compaction of an isolated digit run

The final pass is proved to compact every input that is a single run of five
or more single digits separated by single spaces.  (A text with several runs
can be left partially uncompacted, because each found run is substituted by
textual `str.replace`; see the counterexample.) -/

theorem digit_not_space (c : Char) (h : pyIsDigit c = true) : pySpaceChar c = false := by
  unfold pyIsDigit at h
  rw [Bool.and_eq_true, decide_eq_true_eq, decide_eq_true_eq] at h
  have h1 : 48 ≤ c.toNat := h.1
  unfold pySpaceChar
  have hne : ∀ d : Char, d.toNat ≤ 32 → (c == d) = false := by
    intro d hd
    rw [beq_eq_false_iff_ne]
    intro he
    subst he
    omega
  rw [hne ' ' (by decide), hne '\t' (by decide), hne '\n' (by decide),
    hne '\r' (by decide), hne '\x0b' (by decide), hne '\x0c' (by decide)]
  rfl

theorem digit_not_upper (c : Char) (h : pyIsDigit c = true) : pyIsUpper c = false := by
  unfold pyIsDigit at h
  rw [Bool.and_eq_true, decide_eq_true_eq, decide_eq_true_eq] at h
  have h1 : c.toNat ≤ 57 := h.2
  rw [Bool.eq_false_iff]
  intro hu
  unfold pyIsUpper at hu
  rw [Bool.and_eq_true, decide_eq_true_eq, decide_eq_true_eq] at hu
  have h2 : 65 ≤ c.toNat := hu.1
  omega

theorem mem_intersperse_char (sep : Char) :
    ∀ (xs : List Char) (a : Char), a ∈ xs.intersperse sep → a = sep ∨ a ∈ xs := by
  intro xs
  induction xs with
  | nil =>
    intro a ha
    simp at ha
  | cons x xs ih =>
    intro a ha
    cases xs with
    | nil =>
      simp only [List.intersperse_singleton, List.mem_singleton] at ha
      subst ha
      exact Or.inr (List.mem_singleton_self _)
    | cons y ys =>
      rw [show (x :: y :: ys).intersperse sep = x :: sep :: (y :: ys).intersperse sep
        from rfl] at ha
      rcases List.mem_cons.mp ha with rfl | ha2
      · exact Or.inr (List.mem_cons_self _ _)
      · rcases List.mem_cons.mp ha2 with rfl | ha3
        · exact Or.inl rfl
        · rcases ih a ha3 with h | h
          · exact Or.inl h
          · exact Or.inr (List.mem_cons_of_mem x h)

theorem map_pyLower_id : ∀ (s : List Char), (∀ c ∈ s, pyIsUpper c = false) →
    s.map pyLowerChar = s := by
  intro s
  induction s with
  | nil =>
    intro _
    rfl
  | cons c rest ih =>
    intro h
    have hc := h c (List.mem_cons_self c rest)
    rw [List.map_cons, ih fun d hd => h d (List.mem_cons_of_mem c hd)]
    have : pyLowerChar c = c := by
      unfold pyLowerChar
      rw [hc]
      simp
    rw [this]

theorem length_le_intersperse (sep : Char) :
    ∀ ds : List Char, ds.length ≤ (ds.intersperse sep).length := by
  intro ds
  induction ds with
  | nil => exact Nat.le_refl _
  | cons d rest ih =>
    cases rest with
    | nil => simp [List.intersperse_singleton]
    | cons e r =>
      rw [show (d :: e :: r).intersperse sep = d :: sep :: (e :: r).intersperse sep from rfl]
      simp only [List.length_cons] at ih ⊢
      omega

theorem pySplitGo_intersperse :
    ∀ (ds : List Char), ds ≠ [] → (∀ c ∈ ds, pySpaceChar c = false) →
      pySplitGo (ds.intersperse ' ') [] = ds.map fun c => [c] := by
  intro ds
  induction ds with
  | nil =>
    intro h _
    exact absurd rfl h
  | cons d rest ih =>
    intro _ h
    have hd : ¬(pySpaceChar d = true) := by
      rw [h d (List.mem_cons_self d rest)]
      simp
    cases rest with
    | nil =>
      rw [List.intersperse_singleton, pySplitGo_cons, if_neg hd, pySplitGo_nil]
      rfl
    | cons e r =>
      rw [show (d :: e :: r).intersperse ' ' = d :: ' ' :: (e :: r).intersperse ' ' from rfl,
        pySplitGo_cons, if_neg hd, pySplitGo_cons, if_pos (by decide),
        if_neg (by simp), ih (by simp) fun c hc => h c (List.mem_cons_of_mem d hc)]
      rfl

theorem intercalate_singleton (sep : Char) :
    ∀ ds : List Char, [sep].intercalate (ds.map fun c => [c]) = ds.intersperse sep := by
  intro ds
  induction ds with
  | nil => rfl
  | cons d rest ih =>
    cases rest with
    | nil => rfl
    | cons e r =>
      rw [show [sep].intercalate ((d :: e :: r).map fun c => [c]) =
        d :: sep :: [sep].intercalate ((e :: r).map fun c => [c]) from rfl, ih]
      rfl

theorem lookup_none_of_ne (k : String) :
    ∀ (l : List (String × String)), (∀ kv ∈ l, (k == kv.1) = false) → l.lookup k = none := by
  intro l
  induction l with
  | nil =>
    intro _
    rfl
  | cons kv rest ih =>
    intro h
    rw [List.lookup, h kv (List.mem_cons_self kv rest)]
    exact ih fun kv2 h2 => h kv2 (List.mem_cons_of_mem kv h2)

theorem number_map_key_lengths : ∀ kv ∈ number_map, kv.1.data.length ≠ 1 := by decide

theorem lookup_single_char (c : Char) : number_map.lookup (⟨[c]⟩ : String) = none := by
  apply lookup_none_of_ne
  intro kv hkv
  rw [beq_eq_false_iff_ne]
  intro h
  have hlen := congrArg (fun s : String => s.data.length) h
  simp only [List.length_singleton] at hlen
  exact number_map_key_lengths kv hkv hlen.symm

/-- On a single space-separated digit run, the word-substitution pass is the
identity: lower-casing changes nothing, the split gives one-character words,
none of which is a spoken-number key, and the re-join restores the text. -/
theorem pass1_intersperse (ds : List Char) (hne : ds ≠ [])
    (hd : ∀ c ∈ ds, pyIsDigit c = true) :
    pyJoin (" ") ((pySplit (pyLower ⟨ds.intersperse ' '⟩)).map
      fun w => ((number_map.lookup w).getD w)) = ⟨ds.intersperse ' '⟩ := by
  have hnu : ∀ c ∈ ds.intersperse ' ', pyIsUpper c = false := by
    intro c hc
    rcases mem_intersperse_char ' ' ds c hc with rfl | h
    · decide
    · exact digit_not_upper c (hd c h)
  have hlow : pyLower ⟨ds.intersperse ' '⟩ = ⟨ds.intersperse ' '⟩ := by
    unfold pyLower
    exact congrArg String.mk (map_pyLower_id _ hnu)
  have hsplit : pySplit ⟨ds.intersperse ' '⟩ =
      (ds.map fun c => [c]).map (fun l => (⟨l⟩ : String)) := by
    unfold pySplit
    rw [show (⟨ds.intersperse ' '⟩ : String).data = ds.intersperse ' ' from rfl,
      pySplitGo_intersperse ds hne fun c hc => digit_not_space c (hd c hc)]
  rw [hlow, hsplit, List.map_map]
  have hf : ((fun w => ((number_map.lookup w).getD w)) ∘ fun l => (⟨l⟩ : String)) ∘
      (fun c : Char => [c]) = fun c : Char => (⟨[c]⟩ : String) := by
    funext c
    simp only [Function.comp]
    rw [lookup_single_char c, Option.getD_none]
  rw [List.map_map, hf]
  unfold pyJoin
  refine congrArg String.mk ?_
  rw [List.map_map,
    show ((fun s : String => s.data) ∘ fun c : Char => (⟨[c]⟩ : String)) =
      fun c : Char => [c] from rfl,
    show ((" ") : String).data = [' '] from rfl,
    intercalate_singleton ' ' ds]

theorem pySpaceChar_toNat (c : Char) (h : pySpaceChar c = true) : c.toNat ≤ 32 := by
  by_contra hgt
  have hfalse : pySpaceChar c = false := by
    unfold pySpaceChar
    have hne : ∀ d : Char, d.toNat ≤ 32 → (c == d) = false := by
      intro d hd
      rw [beq_eq_false_iff_ne]
      intro he
      subst he
      omega
    rw [hne ' ' (by decide), hne '\t' (by decide), hne '\n' (by decide),
      hne '\r' (by decide), hne '\x0b' (by decide), hne '\x0c' (by decide)]
    rfl
  rw [hfalse] at h
  exact absurd h (by simp)

theorem ds_head_ne_letter (c c0 : Char) (hc : pyIsDigit c = true ∨ pySpaceChar c = true)
    (h0 : 97 ≤ c0.toNat) : (c == c0) = false := by
  rw [beq_eq_false_iff_ne]
  intro he
  subst he
  rcases hc with h | h
  · unfold pyIsDigit at h
    rw [Bool.and_eq_true, decide_eq_true_eq, decide_eq_true_eq] at h
    have h2 : c.toNat ≤ 57 := h.2
    omega
  · have h2 := pySpaceChar_toNat c h
    omega

theorem mres_cat_cls_nil (p : Char → Bool) (r : RE) (prev : Option Char) (t : List Char)
    (h : ∀ c, t.head? = some c → p c = false) :
    mres (RE.cat (RE.cls p) r) prev t = [] := by
  rw [mres_cat, mres_cls]
  cases t with
  | nil => rfl
  | cons c rest =>
    dsimp only
    rw [if_neg (by rw [h c rfl]; simp)]
    rfl

theorem mres_reLit_head_nil (w : String) (c0 : Char) (cs : List Char)
    (hw : w.data = c0 :: cs) (prev : Option Char) (t : List Char)
    (h : ∀ c, t.head? = some c → (c == c0) = false) :
    mres (reLit w) prev t = [] := by
  unfold reLit
  rw [hw, List.foldr_cons]
  exact mres_cat_cls_nil _ _ prev t h

theorem mres_reAlts_nil :
    ∀ (rs : List RE) (prev : Option Char) (t : List Char),
      (∀ r ∈ rs, mres r prev t = []) → mres (reAlts rs) prev t = [] := by
  intro rs
  induction rs with
  | nil =>
    intro prev t _
    rw [show reAlts [] = RE.cls fun _ => false from rfl, mres_cls]
    cases t with
    | nil => rfl
    | cons c rest =>
      dsimp only
      rw [if_neg (by simp)]
  | cons x xs ih =>
    intro prev t h
    cases xs with
    | nil => exact h x (List.mem_cons_self x [])
    | cons y ys =>
      rw [show reAlts (x :: y :: ys) = RE.alt x (reAlts (y :: ys)) from rfl, mres_alt,
        h x (List.mem_cons_self x _), List.nil_append]
      exact ih prev t fun r hr => h r (List.mem_cons_of_mem x hr)

theorem number_map_key_head :
    ∀ kv ∈ number_map, kv.1.data ≠ [] ∧ 97 ≤ (kv.1.data.headD 'a').toNat := by decide

/-- On text made only of digits and whitespace, the spoken-number sweep
pattern has no match at any position: every alternative starts with a
lower-case letter. -/
theorem mres_spoken_nil (prev : Option Char) (t : List Char)
    (ht : ∀ c ∈ t, pyIsDigit c = true ∨ pySpaceChar c = true) :
    mres spokenRE prev t = [] := by
  have halts : mres (reAlts (number_map.map fun kv => reLit kv.1)) prev t = [] := by
    apply mres_reAlts_nil
    intro r hr
    rw [List.mem_map] at hr
    obtain ⟨kv, hkv, rfl⟩ := hr
    obtain ⟨hne0, hhead⟩ := number_map_key_head kv hkv
    cases hk : kv.1.data with
    | nil => exact absurd hk hne0
    | cons c0 cs =>
      apply mres_reLit_head_nil kv.1 c0 cs hk
      intro c hc
      have hcm : c ∈ t := by
        cases t with
        | nil => simp at hc
        | cons a r2 =>
          simp only [List.head?_cons, Option.some.injEq] at hc
          subst hc
          exact List.mem_cons_self _ _
      rw [hk] at hhead
      simp only [List.headD_cons] at hhead
      exact ds_head_ne_letter c c0 (ht c hcm) hhead
  unfold spokenRE
  rw [mres_cat, mres_bnd]
  by_cases hb : atBoundary prev t = true
  · rw [if_pos hb]
    simp only [List.flatMap_cons, List.flatMap_nil, List.append_nil]
    rw [mres_cat, halts]
    simp
  · rw [if_neg hb]
    rfl

theorem findAllGo_spoken_empty :
    ∀ (fuel : Nat) (prev : Option Char) (t : List Char),
      (∀ c ∈ t, pyIsDigit c = true ∨ pySpaceChar c = true) →
      findAllGo spokenRE fuel prev t = [] := by
  intro fuel
  induction fuel with
  | zero =>
    intro prev t _
    rfl
  | succ n ih =>
    intro prev t ht
    rw [findAllGo_succ, mres_spoken_nil prev t ht]
    dsimp only [List.head?]
    cases t with
    | nil => rfl
    | cons c rest =>
      dsimp only
      exact ih (some c) rest fun c2 h2 => ht c2 (List.mem_cons_of_mem c h2)

theorem findAll_spoken_empty (t : List Char)
    (ht : ∀ c ∈ t, pyIsDigit c = true ∨ pySpaceChar c = true) :
    findAll spokenRE t = [] :=
  findAllGo_spoken_empty (t.length + 1) none t ht

theorem intersperse_cons_head (sep d : Char) (rest : List Char) :
    ∃ t, (d :: rest).intersperse sep = d :: t := by
  cases rest with
  | nil => exact ⟨[], rfl⟩
  | cons e r => exact ⟨sep :: (e :: r).intersperse sep, rfl⟩

theorem mres_space_cons_neg (prev : Option Char) (c : Char) (t : List Char)
    (hc : pySpaceChar c = false) : mres reSpace prev (c :: t) = [] := by
  unfold reSpace
  rw [mres_cls]
  dsimp only
  rw [if_neg (by rw [hc]; simp)]

theorem mres_digit_cons (prev : Option Char) (d : Char) (t : List Char)
    (hd : pyIsDigit d = true) : mres reDigit prev (d :: t) = [⟨some d, t, none⟩] := by
  unfold reDigit
  rw [mres_cls]
  dsimp only
  rw [if_pos hd]

/-- Source: `\s+` consumes exactly the one space when the next character is not
whitespace. -/
theorem mres_plus_space (prev : Option Char) (t : List Char)
    (ht : ∀ c, t.head? = some c → pySpaceChar c = false) :
    mres (rePlus reSpace) prev (' ' :: t) = [⟨some ' ', t, none⟩] := by
  have hstep2 : mres reSpace (some ' ') t = [] := by
    cases t with
    | nil => rfl
    | cons c rest => exact mres_space_cons_neg (some ' ') c rest (ht c rfl)
  have hinner : repRun (fun p t2 => mres reSpace p t2) 1 none (t.length + 1) (0 + 1)
      (some ' ') t = [⟨some ' ', t, none⟩] := by
    rw [repRun_succ]
    dsimp only
    rw [if_pos rfl, hstep2]
    simp only [List.flatMap_nil, List.nil_append]
    rw [if_pos (by omega : (1 : Nat) ≤ 0 + 1)]
  unfold rePlus
  rw [mres_rep, show ((' ' :: t).length + 1) = (t.length + 1) + 1 from by simp,
    repRun_succ]
  dsimp only
  rw [if_pos rfl,
    show mres reSpace prev (' ' :: t) = [⟨some ' ', t, none⟩] from rfl]
  simp only [List.flatMap_cons, List.flatMap_nil, List.append_nil]
  rw [if_pos (by simp : t.length < (' ' :: t).length), hinner]
  rw [if_neg (by omega : ¬((1 : Nat) ≤ 0))]
  rfl

/-- One `\d\s+` iteration on `digit, space, non-space-next` input. -/
theorem mres_body_step (prev : Option Char) (d : Char) (t : List Char)
    (hd : pyIsDigit d = true)
    (ht : ∀ c, t.head? = some c → pySpaceChar c = false) :
    mres (RE.cat reDigit (rePlus reSpace)) prev (d :: ' ' :: t) =
      [⟨some ' ', t, none⟩] := by
  rw [mres_cat, mres_digit_cons prev d (' ' :: t) hd]
  simp only [List.flatMap_cons, List.flatMap_nil, List.append_nil]
  rw [mres_plus_space (some d) t ht]
  rfl

/-- The body `\d\s+` cannot match a final digit: there is no trailing
whitespace. -/
theorem mres_body_single (prev : Option Char) (d : Char) :
    mres (RE.cat reDigit (rePlus reSpace)) prev [d] = [] := by
  rw [mres_cat]
  by_cases hd : pyIsDigit d = true
  · rw [mres_digit_cons prev d [] hd]
    simp only [List.flatMap_cons, List.flatMap_nil, List.append_nil]
    rw [show mres (rePlus reSpace) (some d) [] = [] from by
      unfold rePlus
      rw [mres_rep, show (([] : List Char).length + 1) = 0 + 1 from rfl, repRun_succ]
      dsimp only
      rw [if_pos rfl, show mres reSpace (some d) [] = [] from rfl]
      simp only [List.flatMap_nil, List.nil_append]
      rw [if_neg (by omega : ¬((1 : Nat) ≤ 0))]]
    rfl
  · rw [show mres reDigit prev [d] = [] from by
      unfold reDigit
      rw [mres_cls]
      dsimp only
      rw [if_neg hd]]
    rfl

/-- Greedy `(?:\d\s+){4,}` on a whole space-separated digit run: the preferred
(first) result stops at the last digit, leaving exactly that one digit of
input, and carries no capture. -/
theorem repRun_digit_run :
    ∀ (rest : List Char) (d : Char) (fuel count : Nat) (prev : Option Char),
      pyIsDigit d = true → (∀ c ∈ rest, pyIsDigit c = true) →
      rest.length + 1 ≤ fuel → 4 ≤ count + rest.length →
      ∃ (pl : Option Char) (z : Char) (tail : List MRes),
        pyIsDigit z = true ∧
        repRun (fun p t => mres (RE.cat reDigit (rePlus reSpace)) p t) 4 none fuel count prev
            ((d :: rest).intersperse ' ') = ⟨pl, [z], none⟩ :: tail := by
  intro rest
  induction rest with
  | nil =>
    intro d fuel count prev hd _ hfuel hcount
    have hc4 : 4 ≤ count := by simpa using hcount
    cases fuel with
    | zero => simp at hfuel
    | succ f =>
      refine ⟨prev, d, [], hd, ?_⟩
      rw [List.intersperse_singleton, repRun_succ]
      dsimp only
      rw [if_pos rfl, mres_body_single prev d]
      simp only [List.flatMap_nil, List.nil_append]
      rw [if_pos hc4]
  | cons e r ih =>
    intro d fuel count prev hd hrest hfuel hcount
    cases fuel with
    | zero =>
      rw [List.length_cons] at hfuel
      omega
    | succ f =>
      have he : pyIsDigit e = true := hrest e (List.mem_cons_self e r)
      have hr2 : ∀ c ∈ r, pyIsDigit c = true :=
        fun c hc => hrest c (List.mem_cons_of_mem e hc)
      have hts : ∀ c, ((e :: r).intersperse ' ').head? = some c → pySpaceChar c = false := by
        intro c hc
        obtain ⟨t2, ht2⟩ := intersperse_cons_head ' ' e r
        rw [ht2] at hc
        simp only [List.head?_cons, Option.some.injEq] at hc
        subst hc
        exact digit_not_space e he
      have hfe : r.length + 1 ≤ f := by
        rw [List.length_cons] at hfuel
        omega
      have hc4 : 4 ≤ (count + 1) + r.length := by
        rw [List.length_cons] at hcount
        omega
      obtain ⟨pl, z, tail, hz, hrec⟩ := ih e f (count + 1) (some ' ') he hr2 hfe hc4
      rw [show (d :: e :: r).intersperse ' ' = d :: ' ' :: (e :: r).intersperse ' ' from rfl,
        repRun_succ]
      dsimp only
      rw [if_pos rfl, mres_body_step prev d ((e :: r).intersperse ' ') hd hts]
      simp only [List.flatMap_cons, List.flatMap_nil, List.append_nil]
      rw [if_pos (by simp only [List.length_cons]; omega :
          ((e :: r).intersperse ' ').length < (d :: ' ' :: (e :: r).intersperse ' ').length),
        hrec]
      exact ⟨pl, z, _, hz, rfl⟩

/-- The preferred match of the whole compaction pattern `(?:\d\s+){4,}\d` on a
space-separated run of five or more digits consumes the entire input. -/
theorem mres_digitRun_head (ds : List Char) (h5 : 5 ≤ ds.length)
    (hd : ∀ c ∈ ds, pyIsDigit c = true) :
    ∃ (z : Char) (tail : List MRes),
      mres digitRunRE none (ds.intersperse ' ') = ⟨some z, [], none⟩ :: tail := by
  cases ds with
  | nil => simp at h5
  | cons d rest =>
    have hd0 : pyIsDigit d = true := hd d (List.mem_cons_self d rest)
    have hrest : ∀ c ∈ rest, pyIsDigit c = true :=
      fun c hc => hd c (List.mem_cons_of_mem d hc)
    have hf : rest.length + 1 ≤ ((d :: rest).intersperse ' ').length + 1 := by
      have h1 := length_le_intersperse ' ' (d :: rest)
      rw [List.length_cons] at h1
      omega
    have hc : 4 ≤ 0 + rest.length := by
      rw [List.length_cons] at h5
      omega
    obtain ⟨pl, z, tail, hz, hrep⟩ := repRun_digit_run rest d
      (((d :: rest).intersperse ' ').length + 1) 0 none hd0 hrest hf hc
    unfold digitRunRE
    rw [mres_cat, mres_rep, hrep]
    simp only [List.flatMap_cons]
    rw [mres_digit_cons pl z [] hz]
    exact ⟨z, _, rfl⟩

theorem findAllGo_digitRun_nil (fuel : Nat) (prev : Option Char) :
    findAllGo digitRunRE fuel prev [] = [] := by
  cases fuel <;> rfl

/-- The compaction pass on a single space-separated run of five or more digits
finds exactly one sequence: the whole text. -/
theorem findAll_digitRun (ds : List Char) (h5 : 5 ≤ ds.length)
    (hd : ∀ c ∈ ds, pyIsDigit c = true) :
    findAll digitRunRE (ds.intersperse ' ') = [ds.intersperse ' '] := by
  obtain ⟨z, tail, hm⟩ := mres_digitRun_head ds h5 hd
  unfold findAll
  rw [findAllGo_succ, hm]
  simp only [List.head?_cons]
  simp only [List.length_nil, Nat.sub_zero, List.take_length]
  rw [if_neg ?hne]
  case hne =>
    cases ds with
    | nil => simp at h5
    | cons d rest =>
      obtain ⟨t2, ht2⟩ := intersperse_cons_head ' ' d rest
      rw [ht2]
      simp
  rw [findAllGo_digitRun_nil]

theorem listStartsWith_self : ∀ l : List Char, listStartsWith l l = true := by
  intro l
  induction l with
  | nil => rfl
  | cons c rest ih =>
    rw [show listStartsWith (c :: rest) (c :: rest) =
        ((c == c) && listStartsWith rest rest) from rfl,
      ih, beq_self_eq_true]
    rfl

theorem replaceGo_nil (old new : List Char) (h : old ≠ []) :
    ∀ fuel, replaceGo old new fuel [] = [] := by
  intro fuel
  cases fuel with
  | zero => rfl
  | succ n =>
    have hsw : listStartsWith old [] = false := by
      cases old with
      | nil => exact absurd rfl h
      | cons c r => rfl
    rw [replaceGo_succ, hsw]
    simp

/-- Source: `s.replace(s, new)` for non-empty `s` substitutes the whole string. -/
theorem pyReplace_whole (s : List Char) (new : String) (h : s ≠ []) :
    pyReplace ⟨s⟩ ⟨s⟩ new = new := by
  have hdata : replaceGo s new.data (s.length + 1) s = new.data := by
    rw [replaceGo_succ, listStartsWith_self s]
    rw [if_pos rfl, List.drop_length, replaceGo_nil s new.data h s.length,
      List.append_nil]
  unfold pyReplace
  rw [if_neg (by cases s with | nil => exact absurd rfl h | cons c r => simp)]
  show String.mk (replaceGo s new.data (s.length + 1) s) = new
  rw [hdata]

/-- Dropping the whitespace of a space-separated digit run leaves the digits. -/
theorem filter_intersperse_digits :
    ∀ (ds : List Char), (∀ c ∈ ds, pyIsDigit c = true) →
      (ds.intersperse ' ').filter (fun c => !pySpaceChar c) = ds := by
  intro ds
  induction ds with
  | nil =>
    intro _
    rfl
  | cons d rest ih =>
    intro h
    have hd : pyIsDigit d = true := h d (List.mem_cons_self d rest)
    have hpd : (!pySpaceChar d) = true := by
      rw [digit_not_space d hd]
      rfl
    cases rest with
    | nil =>
      rw [List.intersperse_singleton, List.filter_cons, if_pos hpd, List.filter_nil]
    | cons e r =>
      rw [show (d :: e :: r).intersperse ' ' = d :: ' ' :: (e :: r).intersperse ' ' from rfl,
        List.filter_cons, if_pos hpd, List.filter_cons,
        if_neg (by decide : ¬((!pySpaceChar ' ') = true)),
        ih fun c hc => h c (List.mem_cons_of_mem d hc)]

/-- A text that is a single space-separated run of five or more single digits
is fully compacted by `_convert_spoken_numbers` to the contiguous digit
string: the word-substitution pass is the identity on it, the spoken-number
sweep finds nothing, and the compaction pass finds the whole text and
replaces it by its space-free filtrate. -/
theorem convert_single_run (ds : List Char) (h5 : 5 ≤ ds.length)
    (hd : ∀ c ∈ ds, pyIsDigit c = true) :
    _convert_spoken_numbers ⟨ds.intersperse ' '⟩ = ⟨ds⟩ := by
  have hne : ds ≠ [] := by
    intro h
    rw [h] at h5
    simp at h5
  have hds : ∀ c ∈ ds.intersperse ' ', pyIsDigit c = true ∨ pySpaceChar c = true := by
    intro c hc
    rcases mem_intersperse_char ' ' ds c hc with rfl | h
    · exact Or.inr (by decide)
    · exact Or.inl (hd c h)
  have hine : ds.intersperse ' ' ≠ [] := by
    cases ds with
    | nil => exact absurd rfl hne
    | cons d rest =>
      obtain ⟨t2, ht2⟩ := intersperse_cons_head ' ' d rest
      rw [ht2]
      simp
  unfold _convert_spoken_numbers
  dsimp only
  rw [pass1_intersperse ds hne hd]
  rw [show (⟨ds.intersperse ' '⟩ : String).data = ds.intersperse ' ' from rfl]
  rw [findAll_spoken_empty (ds.intersperse ' ') hds, List.foldl_nil]
  rw [show (⟨ds.intersperse ' '⟩ : String).data = ds.intersperse ' ' from rfl]
  rw [findAll_digitRun ds h5 hd, List.foldl_cons, List.foldl_nil]
  rw [filter_intersperse_digits ds hd]
  exact pyReplace_whole (ds.intersperse ' ') ⟨ds⟩ hine

/-- claim C7 (amended): the compaction threshold of the final pass is five
single digits, not four: for every input text that is one whitespace-separated
run of five or more single digits, `_convert_spoken_numbers` returns exactly
the contiguous digit string, while the four-digit run `"1 2 3 4"` is returned
unchanged.  (The rule is per-run only because the found sequences are
substituted textually; see the counterexample for a two-run input left
partially uncompacted.) -/
theorem claim_C7_amended_single_run (ds : List Char) (h5 : 5 ≤ ds.length)
    (hd : ∀ c ∈ ds, pyIsDigit c = true) :
    _convert_spoken_numbers ⟨ds.intersperse ' '⟩ = ⟨ds⟩ ∧
      _convert_spoken_numbers ("1 2 3 4") = ("1 2 3 4") :=
  ⟨convert_single_run ds h5 hd, rfl⟩

/-- claim C7 (amended, witness): the five-digit instance `"1 2 3 4 5"`. -/
theorem claim_C7_amended_single_run_witness :
    _convert_spoken_numbers ⟨(("12345") : String).data.intersperse ' '⟩ = ("12345") ∧
      _convert_spoken_numbers ("1 2 3 4") = ("1 2 3 4") :=
  claim_C7_amended_single_run (("12345") : String).data (by decide) (by decide)

end VoiceCRM
